import Mathlib

/-!
Verification development for the kiss2d vector-graphics rasterizer
(`src/vg/raster_fixed.rs`, `src/vg/raster_floating.rs`, `src/vg/vector.rs`,
`src/vg/mod.rs`, `src/image.rs`).

Modelling conventions
* Machine integers: Rust `i32` values are modelled as `ℤ` together with an
  explicit two's-complement wrap `wrap32` applied wherever the Rust program
  performs a (release-mode, wrapping) `i32` operation; `u32` cells are `ℤ`
  values reduced by `wrapU32`.  Rust's shift operators mask the shift amount
  by 31 in release builds (`shl32`/`sar32` below); `i32` division truncates
  toward zero (`Int.tdiv`).
* Rust `f32`/`f64` values are modelled as exact rationals.  Every concrete
  input used in a witness or counterexample below is a dyadic rational with
  few significant bits, on which each of the `f32` operations the program
  performs (differences, products with powers of two, the divisions and
  products appearing in the traces) is exact, so the rational model agrees
  with the machine arithmetic there.  `as i32` / `as u32` casts from floats
  saturate (Rust semantics) and truncate toward zero.
* Buffers (`SimdVec` viewed `as_u32` / `as_f32`) are modelled as total maps
  from `ℤ` (cell index) to the cell value, with the padded length
  `simdLen (w*h)` carried separately; slice-bound checks (`i < buf.len()`)
  are modelled explicitly.  The `u32` and `f32` views of the shared buffer
  are carried as two fields; no claim below mixes the two views.
-/

namespace Kiss2d

set_option allowUnsafeReducibility true

attribute [local semireducible] Rat.add Rat.sub Rat.mul Rat.div Rat.inv Rat.neg

/-- Two's-complement wrap of an integer into the `i32` range `[-2^31, 2^31)`. -/
def wrap32 (x : ℤ) : ℤ := (x + 2 ^ 31) % 2 ^ 32 - 2 ^ 31

/-- Reduction of an integer into the `u32` range `[0, 2^32)`. -/
def wrapU32 (x : ℤ) : ℤ := x % 2 ^ 32

/-- Rust release-mode `i32` shift left: the amount is masked by 31, the
result wraps. -/
def shl32 (a b : ℤ) : ℤ := wrap32 (a * 2 ^ (b % 32).toNat)

/-- Rust release-mode `i32` shift right (arithmetic): the amount is masked
by 31. -/
def sar32 (a b : ℤ) : ℤ := Int.fdiv a (2 ^ (b % 32).toNat)

/-- Rust `i32` division: truncation toward zero, wrapping on overflow. -/
def tdiv32 (a b : ℤ) : ℤ := wrap32 (Int.tdiv a b)

/-- Truncation of a rational toward zero. -/
def qtrunc (q : ℚ) : ℤ := if q < 0 then -((-q).floor) else q.floor

/-- Saturation into the `i32` range. -/
def satI32 (n : ℤ) : ℤ := max (-2 ^ 31) (min n (2 ^ 31 - 1))

/-- Rust `f32 as i32` cast (saturating, truncating toward zero), on the
exact rational model of the float. -/
def f32toI32 (q : ℚ) : ℤ := satI32 (qtrunc q)

/-- Rust `f32 as u32` cast (saturating, truncating toward zero). -/
def f32toU32 (q : ℚ) : ℤ := if q < 0 then 0 else min (qtrunc q) (2 ^ 32 - 1)

/-- The exact value of the `f32` literal `0.000001` used by both engines'
near-horizontal test (`raster_fixed.rs` line 68, `raster_floating.rs`
line 35): rounding `1e-6` to `f32` gives `8796093 * 2^-43`. -/
def f32eps : ℚ := 8796093 / 2 ^ 43

/-- Number of fractional bits of the fixed-point format
(`raster_fixed.rs` line 13). -/
def ϕ : ℤ := 9

/-- `fxOne = 1 << ϕ` (`raster_fixed.rs` line 15). -/
def fxOne : ℤ := shl32 1 ϕ

/-- `fxOneAndAHalf = 1<<ϕ + 1<<(ϕ-1)` (`raster_fixed.rs` line 16).
Under Rust precedence (`+` binds tighter than `<<`) this parses as
`(1 << (ϕ + 1)) << (ϕ - 1)`. -/
def fxOneAndAHalf : ℤ := shl32 (shl32 1 (ϕ + 1)) (ϕ - 1)

/-- `fxOneMinusIota = 1<<ϕ - 1` (`raster_fixed.rs` line 17).
Under Rust precedence this parses as `1 << (ϕ - 1)`. -/
def fxOneMinusIota : ℤ := shl32 1 (ϕ - 1)

/-- The fixed engine's `floor` (`raster_fixed.rs` line 37): `x >> ϕ`. -/
def fxFloor (x : ℤ) : ℤ := sar32 x ϕ

/-- The fixed engine's `ceil` (`raster_fixed.rs` line 38):
`(x + fxOneMinusIota) >> ϕ`. -/
def fxCeil (x : ℤ) : ℤ := sar32 (wrap32 (x + fxOneMinusIota)) ϕ

/-- The parenthesised sub-expression `(1<<(ϕ+2) - fxOneAndAHalf<<1)` of
`raster_fixed.rs` line 252, as Rust parses it:
`(1 << ((ϕ+2) - fxOneAndAHalf)) << 1`. -/
def wideWedgeC : ℤ := shl32 (shl32 1 (wrap32 (ϕ + 2 - fxOneAndAHalf))) 1

/-- A `u32` scanline buffer: cell index to cell value. -/
def Buf : Type := ℤ → ℤ

/-- An `f32` scanline buffer (floating engine's view). -/
def FBuf : Type := ℤ → ℚ

/-- The all-zero buffer (`SimdVec::new` zero-fills). -/
def zeroBuf : Buf := fun _ => 0

/-- The all-zero `f32` buffer. -/
def zeroFBuf : FBuf := fun _ => 0

/-- `clamp` from `src/vg/mod.rs` lines 115-123. -/
def clamp (i width : ℤ) : ℤ := if i < 0 then 0 else if i < width then i else width

/-- Padded cell count of `SimdVec::new(len)` / `recycle(len)`
(`src/vg/mod.rs` lines 57-66): `4 * (len/4 + (len%4 != 0))`. -/
def simdLen (n : ℤ) : ℤ := 4 * (n / 4 + if n % 4 ≠ 0 then 1 else 0)

/-- One guarded buffer write of the fixed engine:
`let i = clamp(k, width); if i < buf.len() { buf[i] += v as u32 }`,
where `buf` is the row slice starting at absolute index `base` of a
buffer of `bufLen` cells. -/
def fixedWrite (width bufLen base k v : ℤ) (buf : Buf) : Buf :=
  let j := clamp k width
  if base + j < bufLen then
    fun i => if i = base + j then wrapU32 (buf i + v) else buf i
  else buf

/-- The interior-column loop `for xi in (x0i + 2)..(x1i - 1)` of
`raster_fixed.rs` lines 197-202, iterated as a fuel recursion. -/
def fixedInteriorGo (width bufLen base v : ℤ) : ℕ → ℤ → Buf → Buf
  | 0, _, buf => buf
  | n + 1, lo, buf => fixedInteriorGo width bufLen base v n (lo + 1) (fixedWrite width bufLen base lo v buf)

/-- The interior-column loop with its Rust range bounds. -/
def fixedInterior (width bufLen base v lo hi : ℤ) (buf : Buf) : Buf :=
  fixedInteriorGo width bufLen base v (hi - lo).toNat lo buf

/-- The per-row buffer writes of `fixed_line_to`
(`raster_fixed.rs` lines 91-267), for a row whose slice starts at
absolute cell `base = y*width`.  All `i32` arithmetic wraps; shifts mask
their amount by 31 (Rust release semantics); note that in Rust `<<`/`>>`
bind looser than `+`/`-`, so e.g. `(x+x_next)>>1 - x0floor` shifts by
`1 - x0floor` and `two_over_s<<ϕ - a - b` shifts by `ϕ - a - b`. -/
def fixedRowWrites (width bufLen base d x xnext : ℤ) (buf : Buf) : Buf :=
  let x0 := if x > xnext then xnext else x
  let x1 := if x > xnext then x else xnext
  let x0i := fxFloor x0
  let x0floor := shl32 x0i ϕ
  let x1i := fxCeil x1
  let x1ceil := shl32 x1i ϕ
  if x1i ≤ x0i + 1 then
    let xmf := sar32 (wrap32 (x + xnext)) (wrap32 (1 - x0floor))
    let buf := fixedWrite width bufLen base (x0i + 0) (wrap32 (d * wrap32 (fxOne - xmf))) buf
    fixedWrite width bufLen base (x0i + 1) (wrap32 (d * xmf)) buf
  else
    let oneOverS := wrap32 (x1 - x0)
    let twoOverS := wrap32 (2 * oneOverS)
    let x0f := wrap32 (x0 - x0floor)
    let oneMinusX0f := wrap32 (fxOne - x0f)
    let oneMinusX0fSq := wrap32 (oneMinusX0f * oneMinusX0f)
    let x1f := wrap32 (wrap32 (x1 - x1ceil) + fxOne)
    let x1fSq := wrap32 (x1f * x1f)
    let buf := fixedWrite width bufLen base x0i (tdiv32 (wrap32 (oneMinusX0fSq * d)) twoOverS) buf
    let buf :=
      if x1i = x0i + 2 then
        fixedWrite width bufLen base (x0i + 1)
          (tdiv32 (wrap32 (shl32 twoOverS (wrap32 (ϕ - oneMinusX0fSq - x1fSq)) * d)) twoOverS) buf
      else
        let buf := fixedWrite width bufLen base (x0i + 1)
          (tdiv32 (wrap32 (shl32 (wrap32 (fxOneAndAHalf - x0f)) (wrap32 (ϕ + 1 - oneMinusX0fSq)) * d)) twoOverS) buf
        let dTimesS := tdiv32 (shl32 d (2 * ϕ)) oneOverS
        let buf := fixedInterior width bufLen base dTimesS (x0i + 2) (x1i - 1) buf
        fixedWrite width bufLen base (x1i - 1)
          (tdiv32 (wrap32 (wrap32 (shl32 (shl32 x1f (wrap32 (1 + wideWedgeC))) ϕ - x1fSq) * d)) twoOverS) buf
    fixedWrite width bufLen base x1i (tdiv32 (wrap32 (x1fSq * d)) twoOverS) buf

/-- Loop-invariant parameters of one `fixed_line_to` segment. -/
structure FixedSeg where
  dir : ℤ
  dxdy : ℚ
  ayF : ℤ
  byF : ℤ
  yMax : ℤ
  width : ℤ
  bufLen : ℤ

/-- Mutable state of the `fixed_line_to` row loop. -/
structure FixedSt where
  x : ℤ
  y : ℤ
  buf : Buf

/-- `dy = fmin((1 + y)<<ϕ, byϕ) - fmax(y<<ϕ, ayϕ)`
(`raster_fixed.rs` line 85). -/
def fixedDy (p : FixedSeg) (y : ℤ) : ℤ :=
  wrap32 (min (shl32 (wrap32 (1 + y)) ϕ) p.byF - max (shl32 y ϕ) p.ayF)

/-- `x_next = x + ((dy as f32) * dxdy) as int1ϕ`
(`raster_fixed.rs` line 86). -/
def fixedXNext (p : FixedSeg) (x y : ℤ) : ℤ :=
  wrap32 (x + f32toI32 ((fixedDy p y : ℚ) * p.dxdy))

/-- One iteration of the `while y < y_max` body of `fixed_line_to`
(`raster_fixed.rs` lines 84-272).  When `y < 0` the Rust `continue`
skips the trailing `y += 1`, so the row index does not advance. -/
def fixedStep (p : FixedSeg) (s : FixedSt) : FixedSt :=
  if s.y < 0 then ⟨fixedXNext p s.x s.y, s.y, s.buf⟩
  else ⟨fixedXNext p s.x s.y, s.y + 1,
    fixedRowWrites p.width p.bufLen (s.y * p.width) (wrap32 (fixedDy p s.y * p.dir)) s.x
      (fixedXNext p s.x s.y) s.buf⟩

/-- The `while y < y_max` loop of `fixed_line_to`, with explicit fuel:
`fixedRun p n s` performs at most `n` iterations, stopping early when the
guard fails.  A run that exhausts its fuel with the guard still true
corresponds to a Rust execution that has not yet exited the loop. -/
def fixedRun (p : FixedSeg) : ℕ → FixedSt → FixedSt
  | 0, s => s
  | n + 1, s => if s.y < p.yMax then fixedRun p n (fixedStep p s) else s

/-- The loop-invariant values `fixed_line_to` computes on entry
(`raster_fixed.rs` lines 54-82): orientation canonicalisation, slope,
`f32` conversions, and the clamped `y_max`. -/
def fixedSegOf (width height bufLen : ℤ) (a b : ℚ × ℚ) : FixedSeg :=
  let dir : ℤ := if a.2 > b.2 then -1 else 1
  let ax := if a.2 > b.2 then b.1 else a.1
  let ay := if a.2 > b.2 then b.2 else a.2
  let bx := if a.2 > b.2 then a.1 else b.1
  let byv := if a.2 > b.2 then a.2 else b.2
  let dxdy := (bx - ax) / (byv - ay)
  let ayF := f32toI32 (ay * 512)
  let byF := f32toI32 (byv * 512)
  let yMax0 := fxCeil byF
  let yMax := if yMax0 > height then height else yMax0
  ⟨dir, dxdy, ayF, byF, yMax, width, bufLen⟩

/-- The initial row-loop state of `fixed_line_to`:
`x = (ax * fxOne) as int1ϕ`, `y = floor(ayϕ)`. -/
def fixedStartOf (a b : ℚ × ℚ) (buf : Buf) : FixedSt :=
  let ax := if a.2 > b.2 then b.1 else a.1
  let ay := if a.2 > b.2 then b.2 else a.2
  ⟨f32toI32 (ax * 512), fxFloor (f32toI32 (ay * 512)), buf⟩

/-- The entry of `fixed_line_to` (`raster_fixed.rs` lines 54-82):
the near-horizontal discard, then the row loop.  The loop is run with
fuel `(yMax - y).toNat`, which is exactly the number of iterations the
Rust loop performs whenever the initial `y` is nonnegative (each
iteration then increments `y` by one); when the initial `y` is negative
the Rust loop never terminates (see the divergence theorem below) and
the fuel merely truncates the model's run. -/
def fixedLineToBuf (width height bufLen : ℤ) (a b : ℚ × ℚ) (buf : Buf) : Buf :=
  let ay := if a.2 > b.2 then b.2 else a.2
  let byv := if a.2 > b.2 then a.2 else b.2
  if byv - ay ≤ f32eps then buf
  else
    let p := fixedSegOf width height bufLen a b
    let s := fixedStartOf a b buf
    (fixedRun p (p.yMax - s.y).toNat s).buf

/-! ### The floating-point engine (`raster_floating.rs`), `f32` modelled as ℚ -/

/-- `floor` of `raster_floating.rs` line 7: `(x as f64).floor() as i32`. -/
def flFloor (q : ℚ) : ℤ := satI32 q.floor

/-- `ceil` of `raster_floating.rs` line 8: `(x as f64).ceil() as i32`. -/
def flCeil (q : ℚ) : ℤ := satI32 q.ceil

/-- One guarded buffer write of the floating engine:
`let i = clamp(k, width); if i < buf.len() { buf[i] += v }`. -/
def flWrite (width bufLen base k : ℤ) (v : ℚ) (fbuf : FBuf) : FBuf :=
  let j := clamp k width
  if base + j < bufLen then
    fun i => if i = base + j then fbuf i + v else fbuf i
  else fbuf

/-- The interior-column loop of `raster_floating.rs` lines 119-124. -/
def flInteriorGo (width bufLen base : ℤ) (v : ℚ) : ℕ → ℤ → FBuf → FBuf
  | 0, _, fbuf => fbuf
  | n + 1, lo, fbuf => flInteriorGo width bufLen base v n (lo + 1) (flWrite width bufLen base lo v fbuf)

/-- The interior-column loop with its Rust range bounds. -/
def flInterior (width bufLen base : ℤ) (v : ℚ) (lo hi : ℤ) (fbuf : FBuf) : FBuf :=
  flInteriorGo width bufLen base v (hi - lo).toNat lo fbuf

/-- The per-row buffer writes of `floating_line_to`
(`raster_floating.rs` lines 68-137). -/
def flRowWrites (width bufLen base : ℤ) (d x xnext : ℚ) (fbuf : FBuf) : FBuf :=
  let x0 := if x > xnext then xnext else x
  let x1 := if x > xnext then x else xnext
  let x0i := flFloor x0
  let x0floor : ℚ := (x0i : ℚ)
  let x1i := flCeil x1
  let x1ceil : ℚ := (x1i : ℚ)
  if x1i ≤ x0i + 1 then
    let xmf := (1 / 2) * (x + xnext) - x0floor
    let fbuf := flWrite width bufLen base (x0i + 0) (d - d * xmf) fbuf
    flWrite width bufLen base (x0i + 1) (d * xmf) fbuf
  else
    let s := 1 / (x1 - x0)
    let x0f := x0 - x0floor
    let oneMinusX0f := 1 - x0f
    let a0 := (1 / 2) * s * oneMinusX0f * oneMinusX0f
    let x1f := x1 - x1ceil + 1
    let am := (1 / 2) * s * x1f * x1f
    let fbuf := flWrite width bufLen base x0i (d * a0) fbuf
    let fbuf :=
      if x1i = x0i + 2 then
        flWrite width bufLen base (x0i + 1) (d * (1 - a0 - am)) fbuf
      else
        let a1 := s * (3 / 2 - x0f)
        let fbuf := flWrite width bufLen base (x0i + 1) (d * (a1 - a0)) fbuf
        let dTimesS := d * s
        let fbuf := flInterior width bufLen base dTimesS (x0i + 2) (x1i - 1) fbuf
        let a2 := a1 + s * ((x1i - x0i - 3 : ℤ) : ℚ)
        flWrite width bufLen base (x1i - 1) (d * (1 - a2 - am)) fbuf
    flWrite width bufLen base x1i (d * am) fbuf

/-- Loop-invariant parameters of one `floating_line_to` segment. -/
structure FlSeg where
  dir : ℚ
  dxdy : ℚ
  ay : ℚ
  byv : ℚ
  yMax : ℤ
  width : ℤ
  bufLen : ℤ

/-- Mutable state of the `floating_line_to` row loop. -/
structure FlSt where
  x : ℚ
  y : ℤ
  fbuf : FBuf

/-- One iteration of the `while y < y_max` body of `floating_line_to`
(`raster_floating.rs` lines 48-141).  As in the fixed engine, the Rust
`continue` taken when `y < 0` skips the trailing `y += 1`. -/
def flStep (p : FlSeg) (s : FlSt) : FlSt :=
  let dy := min ((s.y + 1 : ℤ) : ℚ) p.byv - max ((s.y : ℚ)) p.ay
  let xnext := s.x + dy * p.dxdy
  if s.y < 0 then ⟨xnext, s.y, s.fbuf⟩
  else ⟨xnext, s.y + 1, flRowWrites p.width p.bufLen (s.y * p.width) (dy * p.dir) s.x xnext s.fbuf⟩

/-- The `while y < y_max` loop of `floating_line_to`, with explicit fuel. -/
def flRun (p : FlSeg) : ℕ → FlSt → FlSt
  | 0, s => s
  | n + 1, s => if s.y < p.yMax then flRun p n (flStep p s) else s

/-- The loop-invariant values `floating_line_to` computes on entry
(`raster_floating.rs` lines 21-46). -/
def flSegOf (width height bufLen : ℤ) (a b : ℚ × ℚ) : FlSeg :=
  let dir : ℚ := if a.2 > b.2 then -1 else 1
  let ax := if a.2 > b.2 then b.1 else a.1
  let ay := if a.2 > b.2 then b.2 else a.2
  let bx := if a.2 > b.2 then a.1 else b.1
  let byv := if a.2 > b.2 then a.2 else b.2
  let dxdy := (bx - ax) / (byv - ay)
  let yMax0 := flCeil byv
  let yMax := if yMax0 > height then height else yMax0
  ⟨dir, dxdy, ay, byv, yMax, width, bufLen⟩

/-- The initial row-loop state of `floating_line_to`. -/
def flStartOf (a b : ℚ × ℚ) (fbuf : FBuf) : FlSt :=
  let ax := if a.2 > b.2 then b.1 else a.1
  let ay := if a.2 > b.2 then b.2 else a.2
  ⟨ax, flFloor ay, fbuf⟩

/-- The entry of `floating_line_to` (`raster_floating.rs` lines 21-46);
fuel as in `fixedLineToBuf`. -/
def flLineToBuf (width height bufLen : ℤ) (a b : ℚ × ℚ) (fbuf : FBuf) : FBuf :=
  let ay := if a.2 > b.2 then b.2 else a.2
  let byv := if a.2 > b.2 then a.2 else b.2
  if byv - ay ≤ f32eps then fbuf
  else
    let p := flSegOf width height bufLen a b
    let s := flStartOf a b fbuf
    (flRun p (p.yMax - s.y).toNat s).fbuf

/-! ### The accumulators (`fixed_accumulate_mask`, `floating_accumulate_mask`) -/

/-- The running `i32` accumulator of `fixed_accumulate_mask`
(`raster_fixed.rs` lines 41-52) after processing cells `0..n` of the
buffer: `acc += v as i32` with wrapping addition, walking the whole
buffer linearly. -/
def fixedAccAt (buf : Buf) : ℕ → ℤ
  | 0 => wrap32 (0 + wrap32 (buf 0))
  | n + 1 => wrap32 (fixedAccAt buf n + wrap32 (buf (n + 1)))

/-- The post-processing of one accumulator value in
`fixed_accumulate_mask`: negate-if-negative (wrapping), arithmetic shift
by `2*ϕ - 16`, clamp at `0xffff`, store `as u32`. -/
def fixedMaskVal (acc : ℤ) : ℤ :=
  let a := acc
  let a := if a < 0 then wrap32 (-a) else a
  let a := sar32 a (2 * ϕ - 16)
  let a := if a > 0xffff then 0xffff else a
  wrapU32 a

/-- The cell at linear index `n` after `fixed_accumulate_mask`. -/
def fixedMaskCell (buf : Buf) (n : ℕ) : ℤ := fixedMaskVal (fixedAccAt buf n)

/-- `fixed_accumulate_mask` over a buffer of `len` cells. -/
def fixedAccumulateMask (buf : Buf) (len : ℤ) : Buf :=
  fun j => if 0 ≤ j ∧ j < len then fixedMaskCell buf j.toNat else buf j

/-- The exact value of the `f32` constant `ALMOST256 = 255.99998`
(`raster_floating.rs` line 158): its bit pattern is `0x437fffff`,
i.e. `(2^24 - 1) * 2^-16`. -/
def ALMOST256 : ℚ := (2 ^ 24 - 1) / 2 ^ 16

/-- `ALMOST65536 = ALMOST256 * 256.0` (`raster_floating.rs` line 164),
bit pattern `0x477fffff`, i.e. `(2^24 - 1) * 2^-8`. -/
def ALMOST65536 : ℚ := ALMOST256 * 256

/-- `clamp_alpha` (`raster_floating.rs` lines 166-171). -/
def clampAlpha (q : ℚ) : ℚ :=
  let a := q
  let a := if a < 0 then -a else a
  if a > 1 then 1 else a

/-- The running `f32` accumulator of `floating_accumulate_mask`
(`raster_floating.rs` lines 11-19) after processing cells `0..n`. -/
def flAccAt (fbuf : FBuf) : ℕ → ℚ
  | 0 => 0 + fbuf 0
  | n + 1 => flAccAt fbuf n + fbuf (n + 1)

/-- The cell at linear index `n` after `floating_accumulate_mask`:
`(ALMOST65536 * clamp_alpha(acc)) as u32`. -/
def flMaskCell (fbuf : FBuf) (n : ℕ) : ℤ := f32toU32 (ALMOST65536 * clampAlpha (flAccAt fbuf n))

/-! ### The rasterizer (`src/vg/mod.rs`, `src/vg/vector.rs`) -/

/-- `lerp` (`src/vg/mod.rs` lines 110-112), on coordinate pairs. -/
def lerp (t : ℚ) (p q : ℚ × ℚ) : ℚ × ℚ :=
  (p.1 + t * (q.1 - p.1), p.2 + t * (q.2 - p.2))

/-- The `Rasterizer` state (`src/vg/mod.rs` lines 14-45).  The shared
scanline buffer is carried in both of its views (`buf` as `u32`,
`fbuf` as `f32`); the engine selected by `use_fpm` only ever touches
its own view. -/
structure Raster where
  width : ℤ
  height : ℤ
  bufLen : ℤ
  first : ℚ × ℚ
  pen : ℚ × ℚ
  useFpm : Bool
  buf : Buf
  fbuf : FBuf

/-- `Rasterizer::new(w, h)` (`src/vg/vector.rs` lines 56-65):
`use_fpm = w > 512 || h > 512`, zeroed buffer of `simdLen (w*h)` cells. -/
def Raster.new (w h : ℤ) : Raster :=
  ⟨w, h, simdLen (w * h), (0, 0), (0, 0), decide (w > 512) || decide (h > 512), zeroBuf, zeroFBuf⟩

/-- `move_to` (`src/vg/vector.rs` lines 107-110). -/
def Raster.moveTo (z : Raster) (a : ℚ × ℚ) : Raster :=
  { z with first := a, pen := a }

/-- `line_to` (`src/vg/vector.rs` lines 115-121): dispatch on `use_fpm`;
each engine records the new pen before rasterising the segment. -/
def Raster.lineTo (z : Raster) (b : ℚ × ℚ) : Raster :=
  if z.useFpm then
    { z with pen := b, fbuf := flLineToBuf z.width z.height z.bufLen z.pen b z.fbuf }
  else
    { z with pen := b, buf := fixedLineToBuf z.width z.height z.bufLen z.pen b z.buf }

/-- `close_path` (`src/vg/vector.rs` lines 100-102). -/
def Raster.closePath (z : Raster) : Raster := z.lineTo z.first

/-- The chord loop of `quad_to` (`src/vg/vector.rs` lines 134-140):
`k` remaining iterations, accumulator `t` stepped by `nInv`.  The
control points `a b c` are the ones read at entry. -/
def quadChords (a b c : ℚ × ℚ) (nInv : ℚ) : ℕ → ℚ → Raster → Raster
  | 0, _, z => z
  | k + 1, t, z =>
    let t2 := t + nInv
    let ab := lerp t2 a b
    let bc := lerp t2 b c
    let p := lerp t2 ab bc
    quadChords a b c nInv k t2 (z.lineTo p)

/-- `quad_to` (`src/vg/vector.rs` lines 126-144).  The chord count
`n = 1 + trunc((3 * devsq)^(1/4))` is computed by the program in `f64`
square roots; it is taken here as a parameter `n ≥ 1` (the branch
`devsq < 0.333`, which skips the chord loop, behaves exactly like
`n = 1`).  The final `line_to(c)` is unconditional. -/
def Raster.quadTo (n : ℕ) (z : Raster) (b c : ℚ × ℚ) : Raster :=
  (quadChords z.pen b c (1 / (n : ℚ)) (n - 1) 0 z).lineTo c

/-- The chord loop of `cube_to` (`src/vg/vector.rs` lines 160-169). -/
def cubeChords (a b c d : ℚ × ℚ) (nInv : ℚ) : ℕ → ℚ → Raster → Raster
  | 0, _, z => z
  | k + 1, t, z =>
    let t2 := t + nInv
    let ab := lerp t2 a b
    let bc := lerp t2 b c
    let cd := lerp t2 c d
    let abc := lerp t2 ab bc
    let bcd := lerp t2 bc cd
    let p := lerp t2 abc bcd
    cubeChords a b c d nInv k t2 (z.lineTo p)

/-- `cube_to` (`src/vg/vector.rs` lines 150-172), chord count abstracted
as in `quadTo`. -/
def Raster.cubeTo (n : ℕ) (z : Raster) (b c d : ℚ × ℚ) : Raster :=
  (cubeChords z.pen b c d (1 / (n : ℚ)) (n - 1) 0 z).lineTo d

/-- `accumulate_mask` (`src/vg/vector.rs` lines 215-226): dispatch on
`use_fpm`; the result overwrites the `u32` view of the buffer in place. -/
def Raster.accumulateMask (z : Raster) : Buf :=
  if z.useFpm then
    fun j => if 0 ≤ j ∧ j < z.bufLen then flMaskCell z.fbuf j.toNat else z.buf j
  else
    fun j => if 0 ≤ j ∧ j < z.bufLen then fixedMaskCell z.buf j.toNat else z.buf j

/-! ### The image view and the uniform-source compositor
(`src/image.rs`, `src/vg/vector.rs` lines 326-348) -/

/-- An `RGBA` image view (`src/image.rs` lines 32-41): the byte slice is
modelled as a total map from byte index to byte value. -/
structure Img where
  pix : ℤ → ℤ
  stride : ℤ
  rminx : ℤ
  rminy : ℤ
  rmaxx : ℤ
  rmaxy : ℤ

/-- `RGBA::pix_offset` (`src/image.rs` lines 88-90). -/
def Img.pixOffset (img : Img) (x y : ℤ) : ℤ :=
  (y - img.rminy) * img.stride + (x - img.rminx) * 4

/-- A rectangle (`src/image.rs` lines 8-11), min inclusive, max exclusive. -/
structure Rect where
  minx : ℤ
  miny : ℤ
  maxx : ℤ
  maxy : ℤ

/-- One byte store of the compositor. -/
def setByte (pix : ℤ → ℤ) (i v : ℤ) : ℤ → ℤ :=
  fun j => if j = i then v else pix j

/-- One channel of the `SRC` formula (`src/vg/vector.rs` lines 342-345):
`((s_c * ma / 0xffff) >> 8) as u8` in `u32` arithmetic. -/
def srcChannelByte (sc ma : ℤ) : ℤ :=
  wrapU32 (sc * ma) / 0xffff / 2 ^ 8 % 2 ^ 8

/-- The four channel stores of one pixel under `SRC`. -/
def srcPixelWrites (i sr sg sb sa ma : ℤ) (pix : ℤ → ℤ) : ℤ → ℤ :=
  let pix := setByte pix (i + 0) (srcChannelByte sr ma)
  let pix := setByte pix (i + 1) (srcChannelByte sg ma)
  let pix := setByte pix (i + 2) (srcChannelByte sb ma)
  setByte pix (i + 3) (srcChannelByte sa ma)

/-- The inner (`x`) loop of `rgba_uniform_src`, iterating
`x = x0, x0+1, ...` for `n` steps. -/
def srcRowGo (mask : Buf) (w base stride sr sg sb sa y : ℤ) : ℕ → ℤ → (ℤ → ℤ) → (ℤ → ℤ)
  | 0, _, pix => pix
  | n + 1, x, pix =>
    let ma := mask (y * w + x)
    let i := base + (y * stride + 4 * x)
    srcRowGo mask w base stride sr sg sb sa y n (x + 1) (srcPixelWrites i sr sg sb sa ma pix)

/-- The outer (`y`) loop of `rgba_uniform_src`: `xc` is the per-row
pixel count `r.max.x - r.min.x` (as a natural number). -/
def srcAllGo (mask : Buf) (w base stride sr sg sb sa : ℤ) (xc : ℕ) : ℕ → ℤ → (ℤ → ℤ) → (ℤ → ℤ)
  | 0, _, pix => pix
  | n + 1, y, pix =>
    srcAllGo mask w base stride sr sg sb sa xc n (y + 1)
      (srcRowGo mask w base stride sr sg sb sa y xc 0 pix)

/-- `rgba_uniform_src` (`src/vg/vector.rs` lines 326-348): accumulate the
mask, then walk the rectangle writing the four `SRC` channel bytes of
each pixel, reading the mask at `y * width + x` and writing at byte
offset `pix_offset(r.min) + y * stride + 4 * x`. -/
def Raster.rgbaUniformSrc (z : Raster) (img : Img) (r : Rect) (sr sg sb sa : ℤ) : Img :=
  let mask := z.accumulateMask
  let base := img.pixOffset r.minx r.miny
  { img with
    pix := srcAllGo mask z.width base img.stride sr sg sb sa
      (r.maxx - r.minx).toNat (r.maxy - r.miny).toNat 0 img.pix }

/-! ### Auxiliary notions used by the theorems -/

/-- Pointwise wrapped negation of a `u32` buffer. -/
def negBuf (buf : Buf) : Buf := fun j => wrapU32 (-(buf j))

/-- Pointwise wrapped sum of two `u32` buffers. -/
def addBuf (buf c : Buf) : Buf := fun j => wrapU32 (buf j + c j)

/-- Two buffers whose cells are negatives of each other modulo `2^32`. -/
def NegCongr (b1 b2 : Buf) : Prop := ∀ j, (b1 j + b2 j) % 2 ^ 32 = 0

/-- No-overflow side condition for the divisions of one wide-column row
of `fixed_line_to`: in each of the four `D *= d; D /= ...` sites the
wrapped product must not be exactly `-2^31` (the one `i32` value that is
its own wrapping negation, and the only way a sign flip of `d` can fail
to flip the truncated quotient).  Narrow columns perform no division and
need no condition. -/
def fixedRowSafeB (d x xnext : ℤ) : Bool :=
  let x0 := if x > xnext then xnext else x
  let x1 := if x > xnext then x else xnext
  let x0i := fxFloor x0
  let x0floor := shl32 x0i ϕ
  let x1i := fxCeil x1
  let x1ceil := shl32 x1i ϕ
  if x1i ≤ x0i + 1 then true
  else
    let oneOverS := wrap32 (x1 - x0)
    let twoOverS := wrap32 (2 * oneOverS)
    let x0f := wrap32 (x0 - x0floor)
    let oneMinusX0f := wrap32 (fxOne - x0f)
    let oneMinusX0fSq := wrap32 (oneMinusX0f * oneMinusX0f)
    let x1f := wrap32 (wrap32 (x1 - x1ceil) + fxOne)
    let x1fSq := wrap32 (x1f * x1f)
    decide (wrap32 (oneMinusX0fSq * d) ≠ -2 ^ 31) &&
    decide (wrap32 (x1fSq * d) ≠ -2 ^ 31) &&
    (if x1i = x0i + 2 then
      decide (wrap32 (shl32 twoOverS (wrap32 (ϕ - oneMinusX0fSq - x1fSq)) * d) ≠ -2 ^ 31)
    else
      decide (wrap32 (shl32 (wrap32 (fxOneAndAHalf - x0f)) (wrap32 (ϕ + 1 - oneMinusX0fSq)) * d) ≠ -2 ^ 31) &&
      decide (shl32 d (2 * ϕ) ≠ -2 ^ 31) &&
      decide (wrap32 (wrap32 (shl32 (shl32 x1f (wrap32 (1 + wideWedgeC))) ϕ - x1fSq) * d) ≠ -2 ^ 31))

/-- The row-safety condition along a whole `fixed_line_to` run of the
given fuel, checked on the `(x, y)` loop cursor. -/
def fixedRunSafeB (p : FixedSeg) : ℕ → ℤ → ℤ → Bool
  | 0, _, _ => true
  | n + 1, x, y =>
    if y < p.yMax then
      if y < 0 then fixedRunSafeB p n (fixedXNext p x y) y
      else
        decide (wrap32 (fixedDy p y * p.dir) ≠ -2 ^ 31) &&
        fixedRowSafeB (wrap32 (fixedDy p y * p.dir)) x (fixedXNext p x y) &&
        fixedRunSafeB p n (fixedXNext p x y) (y + 1)
    else true

/-- Safety of one whole `fixed_line_to` segment (trivially true for a
discarded near-horizontal segment). -/
def fixedSegSafeB (width height bufLen : ℤ) (a b : ℚ × ℚ) : Bool :=
  let ay := if a.2 > b.2 then b.2 else a.2
  let byv := if a.2 > b.2 then a.2 else b.2
  if byv - ay ≤ f32eps then true
  else
    let p := fixedSegOf width height bufLen a b
    let s := fixedStartOf a b zeroBuf
    fixedRunSafeB p (p.yMax - s.y).toNat s.x s.y

/-- A `FixedSeg` with the winding direction flipped (the parameters the
row loop receives for the same canonical segment traversed the other
way). -/
def negSeg (p : FixedSeg) : FixedSeg :=
  ⟨-p.dir, p.dxdy, p.ayF, p.byF, p.yMax, p.width, p.bufLen⟩

/-- All cells of a buffer are reduced `u32` values. -/
def BufNorm (buf : Buf) : Prop := ∀ j, 0 ≤ buf j ∧ buf j < 2 ^ 32

/-- The channel component `s_c` of a uniform source, `c ∈ {0,1,2,3}`. -/
def chanOf (sr sg sb sa c : ℤ) : ℤ :=
  if c = 0 then sr else if c = 1 then sg else if c = 2 then sb else sa

/-- The claim's reading of the fixed accumulation step, following the
spec's words (§4.3 together with claim C4): for row `y` and column `x`,
`min(0xFFFF, |acc| >> 2)` where `acc` is the signed running sum of the
delta cells of row `y` from column `0` up to and including column `x`
(each cell read as `i32`).  This definition follows the spec, not the
source; it is the comparison point for the refinement claim. -/
def specRowAcc (width : ℤ) (buf : Buf) (y : ℤ) : ℕ → ℤ
  | 0 => wrap32 (buf (y * width))
  | k + 1 => specRowAcc width buf y k + wrap32 (buf (y * width + (k + 1)))

/-- The per-row mask value the spec's words describe (see `specRowAcc`). -/
def specPerRowMaskCell (width : ℤ) (buf : Buf) (y : ℤ) (x : ℕ) : ℤ :=
  min 0xffff (|specRowAcc width buf y x| / 4)

/-! ## Theorems -/

/-! ### Basic facts about the wrapped arithmetic -/

theorem wrap32_lb (x : ℤ) : -2 ^ 31 ≤ wrap32 x := by
  unfold wrap32; omega

theorem wrap32_ub (x : ℤ) : wrap32 x < 2 ^ 31 := by
  unfold wrap32; omega

theorem wrap32_eq_self {x : ℤ} (h1 : -2 ^ 31 ≤ x) (h2 : x < 2 ^ 31) : wrap32 x = x := by
  unfold wrap32; omega

theorem wrap32_emod (x : ℤ) : wrap32 x % 2 ^ 32 = x % 2 ^ 32 := by
  unfold wrap32; omega

theorem wrap32_congr {x y : ℤ} (h : x % 2 ^ 32 = y % 2 ^ 32) : wrap32 x = wrap32 y := by
  unfold wrap32; omega

theorem wrap32_wrap32 (x : ℤ) : wrap32 (wrap32 x) = wrap32 x :=
  wrap32_eq_self (wrap32_lb x) (wrap32_ub x)

theorem wrap32_neg {x : ℤ} (h : wrap32 x ≠ -2 ^ 31) : wrap32 (-x) = -wrap32 x := by
  unfold wrap32 at *; omega

theorem wrap32_neg_ne {x : ℤ} (h : wrap32 x ≠ -2 ^ 31) : wrap32 (-x) ≠ -2 ^ 31 := by
  unfold wrap32 at *; omega

theorem wrapU32_lb (x : ℤ) : 0 ≤ wrapU32 x := by
  unfold wrapU32; omega

theorem wrapU32_ub (x : ℤ) : wrapU32 x < 2 ^ 32 := by
  unfold wrapU32; omega

theorem wrapU32_congr {x y : ℤ} (h : x % 2 ^ 32 = y % 2 ^ 32) : wrapU32 x = wrapU32 y := by
  unfold wrapU32; omega

theorem wrapU32_emod (x : ℤ) : wrapU32 x % 2 ^ 32 = x % 2 ^ 32 := by
  unfold wrapU32; omega

theorem wrapU32_add_left (a b : ℤ) : wrapU32 (wrapU32 a + b) = wrapU32 (a + b) := by
  unfold wrapU32; omega

theorem wrap32_to_emod (x : ℤ) : wrap32 x % 2 ^ 32 = x % 2 ^ 32 := wrap32_emod x

/-! ### Claim C2: the wide-column right-wedge constant -/

/-- C2: the claim asserts that `1<<(ϕ+2) - fxOneAndAHalf<<1` in
`raster_fixed.rs` line 252 is evaluated as
`(1 << (ϕ+2)) - (fxOneAndAHalf << 1)` with
`fxOneAndAHalf = (1<<ϕ) + (1<<(ϕ-1)) = 768`, so that the constant added
to `x1f<<1` equals `512`.  In the Rust source, `<<` binds looser than
`+`/`-`, so `fxOneAndAHalf = (1 << (ϕ+1)) << (ϕ-1) = 262144` and the
wedge sub-expression evaluates (with release-mode masked shifts) to
`(1 << ((ϕ+2) - fxOneAndAHalf)) << 1 = 4096`, not `512`; moreover the
enclosing `x1f<<1 + (...)` then shifts `x1f` by `(1 + 4096) & 31 = 1`,
so the `+ 512` term of the comments' derivation is lost entirely.  This
theorem evaluates the code's constants at the failing input `ϕ = 9`,
exhibiting the divergence from the claim. -/
theorem fixedWedgeConstantEvaluation :
    fxOneAndAHalf = 262144 ∧ wideWedgeC = 4096 ∧
    fxOneAndAHalf ≠ 768 ∧ wideWedgeC ≠ 512 ∧
    (∀ x1f : ℤ, shl32 x1f (wrap32 (1 + wideWedgeC)) = wrap32 (x1f * 2)) := by
  refine ⟨by decide, by decide, by decide, by decide, fun x1f => ?_⟩
  have h : wrap32 (1 + wideWedgeC) = 4097 := by decide
  rw [h]
  unfold shl32
  norm_num

/-! ### Claim C1: the per-row loop and rows with `y < 0` -/

theorem fixedStepC1 :
    fixedStep (fixedSegOf 4 4 16 (0, -1) (0, 1)) (fixedStartOf (0, -1) (0, 1) zeroBuf)
      = fixedStartOf (0, -1) (0, 1) zeroBuf := rfl

theorem fixedRunC1 (n : ℕ) :
    fixedRun (fixedSegOf 4 4 16 (0, -1) (0, 1)) n (fixedStartOf (0, -1) (0, 1) zeroBuf)
      = fixedStartOf (0, -1) (0, 1) zeroBuf := by
  induction n with
  | zero => rfl
  | succ n ih =>
    have hy : (fixedStartOf (0, -1) (0, 1) zeroBuf).y < (fixedSegOf 4 4 16 (0, -1) (0, 1)).yMax := by
      decide
    show (if _ < _ then _ else _) = _
    rw [if_pos hy, fixedStepC1, ih]

theorem flStepC1 :
    flStep (flSegOf 4 4 16 (0, -1) (0, 1)) (flStartOf (0, -1) (0, 1) zeroFBuf)
      = flStartOf (0, -1) (0, 1) zeroFBuf := rfl

theorem flRunC1 (n : ℕ) :
    flRun (flSegOf 4 4 16 (0, -1) (0, 1)) n (flStartOf (0, -1) (0, 1) zeroFBuf)
      = flStartOf (0, -1) (0, 1) zeroFBuf := by
  induction n with
  | zero => rfl
  | succ n ih =>
    have hy : (flStartOf (0, -1) (0, 1) zeroFBuf).y < (flSegOf 4 4 16 (0, -1) (0, 1)).yMax := by
      decide
    show (if _ < _ then _ else _) = _
    rw [if_pos hy, flStepC1, ih]

/-- C1: the claim asserts that every `line_to` row loop terminates,
visiting exactly the rows `[floor(ay), min(ceil(by), height))`, with
rows `y < 0` merely advancing the `x` cursor "before moving to the next
row".  In the Rust source the `continue` taken when `y < 0` sits inside
a `while` loop, so it skips the trailing `y += 1` (unlike the Go
original's `for` post-statement): on the segment from `(0, -1)` to
`(0, 1)` on a `4×4` mask — which is not discarded as near-horizontal,
and whose loop is entered at `y = -1 < y_max = 1` — the loop body is the
identity on the loop state in both engines, so the guard holds after
every number of iterations and the loop never terminates. -/
theorem lineToRowLoopDivergesAtNegativeRow :
    (¬((1 : ℚ) - (-1) ≤ f32eps)) ∧
    (∀ n : ℕ,
      fixedRun (fixedSegOf 4 4 16 (0, -1) (0, 1)) n (fixedStartOf (0, -1) (0, 1) zeroBuf)
        = fixedStartOf (0, -1) (0, 1) zeroBuf ∧
      (fixedStartOf (0, -1) (0, 1) zeroBuf).y < (fixedSegOf 4 4 16 (0, -1) (0, 1)).yMax) ∧
    (∀ n : ℕ,
      flRun (flSegOf 4 4 16 (0, -1) (0, 1)) n (flStartOf (0, -1) (0, 1) zeroFBuf)
        = flStartOf (0, -1) (0, 1) zeroFBuf ∧
      (flStartOf (0, -1) (0, 1) zeroFBuf).y < (flSegOf 4 4 16 (0, -1) (0, 1)).yMax) :=
  ⟨by decide, fun n => ⟨fixedRunC1 n, by decide⟩, fun n => ⟨flRunC1 n, by decide⟩⟩

/-! ### Claim C8: pen and subpath-start invariants -/

theorem lineTo_pen (z : Raster) (b : ℚ × ℚ) : (z.lineTo b).pen = b := by
  cases h : z.useFpm <;> simp [Raster.lineTo, h]

theorem lineTo_first (z : Raster) (b : ℚ × ℚ) : (z.lineTo b).first = z.first := by
  cases h : z.useFpm <;> simp [Raster.lineTo, h]

/-- C8: for every rasterizer state and all coordinate arguments,
`move_to(a)` leaves `first = pen = a`; `line_to`, `quad_to` and
`cube_to` leave the pen at their final endpoint (each engine stores the
new pen unconditionally on entry, before the near-horizontal discard,
and the flattening loops of `quad_to`/`cube_to` end with an
unconditional `line_to` of the final control point — `n` here abstracts
the float-computed chord count, with `n = 1` covering the
`devsq < 0.333` branch); and `close_path()` is literally
`line_to(first)` and leaves `pen = first`. -/
theorem pathOpsPenFirstInvariants (z : Raster) (a b c d : ℚ × ℚ) (n m : ℕ) :
    (z.moveTo a).first = a ∧ (z.moveTo a).pen = a ∧
    (z.lineTo b).pen = b ∧
    (Raster.quadTo n z b c).pen = c ∧
    (Raster.cubeTo m z b c d).pen = d ∧
    z.closePath = z.lineTo z.first ∧ (z.closePath).pen = z.first :=
  ⟨rfl, rfl, lineTo_pen z b,
   lineTo_pen _ c,
   lineTo_pen _ d,
   rfl, lineTo_pen z z.first⟩

/-! ### Claims C4 and C5: the fixed accumulation step -/

theorem fixedAccAt_range (buf : Buf) (n : ℕ) :
    -2 ^ 31 ≤ fixedAccAt buf n ∧ fixedAccAt buf n < 2 ^ 31 := by
  cases n <;> exact ⟨wrap32_lb _, wrap32_ub _⟩

theorem fixedMaskVal_eq_min {acc : ℤ} (h1 : -2 ^ 31 ≤ acc) (h2 : acc < 2 ^ 31)
    (hne : acc ≠ -2 ^ 31) :
    fixedMaskVal acc = min 0xffff (|acc| / 4) := by
  simp only [fixedMaskVal, sar32]
  have h4 : ((2 * ϕ - 16) % 32).toNat = 2 := by decide
  rw [h4]
  by_cases hlt : acc < 0
  · rw [if_pos hlt, wrap32_eq_self (by omega) (by omega),
      Int.fdiv_eq_ediv _ (by norm_num), abs_of_neg hlt]
    unfold wrapU32
    omega
  · rw [if_neg hlt, Int.fdiv_eq_ediv _ (by norm_num), abs_of_nonneg (by omega)]
    unfold wrapU32
    omega

/-- C4 (amended): after `fixed_accumulate_mask`, the cell at linear
index `j` equals `min(0xFFFF, |acc| >> 2)` where `acc` is the wrapping
`i32` running sum of the delta cells of the whole buffer from index `0`
through `j` in linear order — the accumulator is not reset at row
boundaries, so the sum runs across rows (and across the tail padding
cells) — provided that running sum is not exactly `-2^31` (whose
wrapping negation is itself). -/
theorem fixedAccumulateMaskLinearScan (buf : Buf) (len j : ℤ)
    (h0 : 0 ≤ j) (hl : j < len) (hne : fixedAccAt buf j.toNat ≠ -2 ^ 31) :
    fixedAccumulateMask buf len j = min 0xffff (|fixedAccAt buf j.toNat| / 4) := by
  unfold fixedAccumulateMask
  rw [if_pos ⟨h0, hl⟩]
  exact fixedMaskVal_eq_min (fixedAccAt_range buf _).1 (fixedAccAt_range buf _).2 hne

theorem fixedAccumulateMaskLinearScanWitness :
    fixedAccumulateMask (fun j => if j = 0 then 4 else 0) 4 1
      = min 0xffff (|fixedAccAt (fun j => if j = 0 then 4 else 0) (1 : ℤ).toNat| / 4) :=
  fixedAccumulateMaskLinearScan (fun j => if j = 0 then 4 else 0) 4 1
    (by decide) (by decide) (by decide)

/-- C4 counterexample: on the buffer `[4, 0, 0, 0]` of a `1×2` mask
(padded to 4 cells), the code's accumulator is not reset per row: the
cell of row `1`, column `0` (linear index `1*1+0 = 1`) ends up `1`
because the running sum `4` of row `0` is carried across the row
boundary, whereas the claim's per-row running sum for that cell is `0`
(row 1 contains only zeros). -/
theorem fixedAccumulatePerRowCounterexample :
    fixedAccumulateMask (fun j => if j = 0 then 4 else 0) 4 (1 * 1 + 0) = 1 ∧
    specPerRowMaskCell 1 (fun j => if j = 0 then 4 else 0) 1 0 = 0 ∧ (1 : ℤ) ≠ 0 :=
  ⟨by decide, by decide, by decide⟩

theorem clampAlpha_mem (q : ℚ) : 0 ≤ clampAlpha q ∧ clampAlpha q ≤ 1 := by
  simp only [clampAlpha]
  split_ifs <;> constructor <;> linarith

theorem flMaskCell_range (fbuf : FBuf) (n : ℕ) :
    0 ≤ flMaskCell fbuf n ∧ flMaskCell fbuf n ≤ 0xffff := by
  obtain ⟨ha0, ha1⟩ := clampAlpha_mem (flAccAt fbuf n)
  have hM : (0 : ℚ) ≤ ALMOST65536 := by norm_num [ALMOST65536, ALMOST256]
  have hq0 : 0 ≤ ALMOST65536 * clampAlpha (flAccAt fbuf n) := mul_nonneg hM ha0
  have hqlt : ALMOST65536 * clampAlpha (flAccAt fbuf n) < 65536 := by
    have h1 : ALMOST65536 * clampAlpha (flAccAt fbuf n) ≤ ALMOST65536 * 1 :=
      mul_le_mul_of_nonneg_left ha1 hM
    have h2 : ALMOST65536 * 1 < 65536 := by norm_num [ALMOST65536, ALMOST256]
    linarith
  unfold flMaskCell f32toU32
  rw [if_neg (not_lt.mpr hq0)]
  unfold qtrunc
  rw [if_neg (not_lt.mpr hq0)]
  have hfl : (ALMOST65536 * clampAlpha (flAccAt fbuf n)).floor
      = ⌊ALMOST65536 * clampAlpha (flAccAt fbuf n)⌋ := rfl
  rw [hfl]
  have h3 : 0 ≤ ⌊ALMOST65536 * clampAlpha (flAccAt fbuf n)⌋ := Int.floor_nonneg.mpr hq0
  have h4 : ⌊ALMOST65536 * clampAlpha (flAccAt fbuf n)⌋ < 65536 := by
    apply Int.floor_lt.mpr
    push_cast
    exact hqlt
  omega

/-- C5 (amended): after the accumulation step every cell of the buffer
holds a value in `[0, 0xFFFF]`, in either engine: unconditionally for
the floating engine, whose `clamp_alpha` lands in `[0, 1]` and whose
`ALMOST65536` multiplier keeps the truncated `as u32` cast below
`65536`; and for the fixed engine provided no wrapping running sum of
the buffer equals `-2^31` (the `i32` whose wrapping negation is
negative, which escapes both the absolute value and the `0xffff`
clamp — see the counterexample). -/
theorem accumulateMaskCellRange (buf : Buf) (fbuf : FBuf) (len j : ℤ) (n : ℕ)
    (h0 : 0 ≤ j) (hl : j < len) (hne : fixedAccAt buf j.toNat ≠ -2 ^ 31) :
    (0 ≤ fixedAccumulateMask buf len j ∧ fixedAccumulateMask buf len j ≤ 0xffff) ∧
    (0 ≤ flMaskCell fbuf n ∧ flMaskCell fbuf n ≤ 0xffff) := by
  refine ⟨?_, flMaskCell_range fbuf n⟩
  unfold fixedAccumulateMask
  rw [if_pos ⟨h0, hl⟩]
  rw [show fixedMaskCell buf j.toNat = fixedMaskVal (fixedAccAt buf j.toNat) from rfl,
    fixedMaskVal_eq_min (fixedAccAt_range buf _).1 (fixedAccAt_range buf _).2 hne]
  have habs : 0 ≤ |fixedAccAt buf j.toNat| := abs_nonneg _
  omega

theorem accumulateMaskCellRangeWitness :
    ((0 ≤ fixedAccumulateMask (fun j => if j = 0 then 300000 else 0) 4 0 ∧
      fixedAccumulateMask (fun j => if j = 0 then 300000 else 0) 4 0 ≤ 0xffff) ∧
     (0 ≤ flMaskCell (fun _ => 1/2) 0 ∧ flMaskCell (fun _ => 1/2) 0 ≤ 0xffff)) :=
  accumulateMaskCellRange (fun j => if j = 0 then 300000 else 0) (fun _ => 1/2) 4 0 0
    (by decide) (by decide) (by decide)

/-- C5 counterexample: on the buffer state whose first cell is
`0x80000000` (the `i32` value `-2^31`), the accumulated cell is
`0xE0000000`, far outside `[0, 0xFFFF]`: the wrapping negation of
`-2^31` is still negative, the arithmetic shift keeps it negative, the
`> 0xffff` clamp does not fire, and the `as u32` store produces
`2^32 - 2^29`. -/
theorem fixedAccumulateRangeCounterexample :
    fixedAccumulateMask (fun j => if j = 0 then 2 ^ 31 else 0) 4 0 = 0xE0000000 ∧
    ¬(fixedAccumulateMask (fun j => if j = 0 then 2 ^ 31 else 0) 4 0 ≤ 0xffff) :=
  ⟨by decide, by decide⟩

/-! ### Claim C3: which buffer cells a `line_to` can touch -/

theorem clamp_bounds (k width : ℤ) (hw : 0 ≤ width) :
    0 ≤ clamp k width ∧ clamp k width ≤ width := by
  unfold clamp
  split_ifs <;> omega

theorem fixedWrite_outside {width bufLen base j : ℤ} (hw : 0 ≤ width)
    (hj : ¬(base ≤ j ∧ j ≤ base + width ∧ j < bufLen)) (k v : ℤ) (buf : Buf) :
    fixedWrite width bufLen base k v buf j = buf j := by
  obtain ⟨h1, h2⟩ := clamp_bounds k width hw
  unfold fixedWrite
  split_ifs with hg
  · show (if j = base + clamp k width then _ else buf j) = buf j
    rw [if_neg (by omega)]
  · rfl

theorem fixedInteriorGo_outside {width bufLen base j : ℤ} (hw : 0 ≤ width)
    (hj : ¬(base ≤ j ∧ j ≤ base + width ∧ j < bufLen)) (v : ℤ) (n : ℕ) (lo : ℤ) (buf : Buf) :
    fixedInteriorGo width bufLen base v n lo buf j = buf j := by
  induction n generalizing lo buf with
  | zero => rfl
  | succ n ih => rw [fixedInteriorGo, ih, fixedWrite_outside hw hj]

theorem fixedInterior_outside {width bufLen base j : ℤ} (hw : 0 ≤ width)
    (hj : ¬(base ≤ j ∧ j ≤ base + width ∧ j < bufLen)) (v lo hi : ℤ) (buf : Buf) :
    fixedInterior width bufLen base v lo hi buf j = buf j :=
  fixedInteriorGo_outside hw hj v _ lo buf

theorem fixedRowWrites_outside {width bufLen base j : ℤ} (hw : 0 ≤ width)
    (hj : ¬(base ≤ j ∧ j ≤ base + width ∧ j < bufLen)) (d x xnext : ℤ) (buf : Buf) :
    fixedRowWrites width bufLen base d x xnext buf j = buf j := by
  simp only [fixedRowWrites]
  split_ifs <;>
    simp only [fixedWrite_outside hw hj, fixedInterior_outside hw hj]

theorem fixedStep_y_mono (p : FixedSeg) (s : FixedSt) : s.y ≤ (fixedStep p s).y := by
  simp only [fixedStep]
  split_ifs <;> simp

theorem fixedRun_writeSet (p : FixedSeg) (hw : 0 ≤ p.width) :
    ∀ (n : ℕ) (s : FixedSt) (j : ℤ), (fixedRun p n s).buf j ≠ s.buf j →
      ∃ y, 0 ≤ y ∧ s.y ≤ y ∧ y < p.yMax ∧
        y * p.width ≤ j ∧ j ≤ y * p.width + p.width ∧ j < p.bufLen := by
  intro n
  induction n with
  | zero => exact fun s j h => absurd rfl h
  | succ n ih =>
    intro s j h
    by_cases hg : s.y < p.yMax
    · rw [show fixedRun p (n + 1) s = fixedRun p n (fixedStep p s) from by
        rw [fixedRun, if_pos hg]] at h
      by_cases hstep : (fixedStep p s).buf j = s.buf j
      · obtain ⟨y, hy0, hys, hylt, h5, h6, h7⟩ := ih (fixedStep p s) j (by rw [hstep]; exact h)
        have hmono := fixedStep_y_mono p s
        exact ⟨y, hy0, by omega, hylt, h5, h6, h7⟩
      · by_cases hneg : s.y < 0
        · exact absurd (by simp only [fixedStep]; rw [if_pos hneg]) hstep
        · by_cases hnb : s.y * p.width ≤ j ∧ j ≤ s.y * p.width + p.width ∧ j < p.bufLen
          · exact ⟨s.y, by omega, le_refl _, hg, hnb.1, hnb.2.1, hnb.2.2⟩
          · refine absurd ?_ hstep
            show (fixedStep p s).buf j = s.buf j
            simp only [fixedStep]
            rw [if_neg hneg]
            exact fixedRowWrites_outside hw hnb _ _ _ _
    · rw [show fixedRun p (n + 1) s = s from by rw [fixedRun, if_neg hg]] at h
      exact absurd rfl h

theorem fixedLineTo_writeSet {width height bufLen : ℤ} (hw : 0 ≤ width)
    (a b : ℚ × ℚ) (buf : Buf) (j : ℤ)
    (h : fixedLineToBuf width height bufLen a b buf j ≠ buf j) :
    ∃ y, 0 ≤ y ∧ y < height ∧
      y * width ≤ j ∧ j ≤ y * width + width ∧ j < bufLen := by
  simp only [fixedLineToBuf] at h
  split_ifs at h
  all_goals try exact absurd rfl h
  all_goals
    obtain ⟨y, hy0, _, hylt, h5, h6, h7⟩ :=
      fixedRun_writeSet (fixedSegOf width height bufLen a b) hw _ (fixedStartOf a b buf) j h
  all_goals
    have hle : (fixedSegOf width height bufLen a b).yMax ≤ height := by
      simp only [fixedSegOf]
      split_ifs <;> omega
  all_goals exact ⟨y, hy0, by omega, h5, h6, h7⟩

theorem flWrite_outside {width bufLen base j : ℤ} (hw : 0 ≤ width)
    (hj : ¬(base ≤ j ∧ j ≤ base + width ∧ j < bufLen)) (k : ℤ) (v : ℚ) (fbuf : FBuf) :
    flWrite width bufLen base k v fbuf j = fbuf j := by
  obtain ⟨h1, h2⟩ := clamp_bounds k width hw
  unfold flWrite
  split_ifs with hg
  · show (if j = base + clamp k width then _ else fbuf j) = fbuf j
    rw [if_neg (by omega)]
  · rfl

theorem flInteriorGo_outside {width bufLen base j : ℤ} (hw : 0 ≤ width)
    (hj : ¬(base ≤ j ∧ j ≤ base + width ∧ j < bufLen)) (v : ℚ) (n : ℕ) (lo : ℤ) (fbuf : FBuf) :
    flInteriorGo width bufLen base v n lo fbuf j = fbuf j := by
  induction n generalizing lo fbuf with
  | zero => rfl
  | succ n ih => rw [flInteriorGo, ih, flWrite_outside hw hj]

theorem flInterior_outside {width bufLen base j : ℤ} (hw : 0 ≤ width)
    (hj : ¬(base ≤ j ∧ j ≤ base + width ∧ j < bufLen)) (v : ℚ) (lo hi : ℤ) (fbuf : FBuf) :
    flInterior width bufLen base v lo hi fbuf j = fbuf j :=
  flInteriorGo_outside hw hj v _ lo fbuf

theorem flRowWrites_outside {width bufLen base j : ℤ} (hw : 0 ≤ width)
    (hj : ¬(base ≤ j ∧ j ≤ base + width ∧ j < bufLen)) (d x xnext : ℚ) (fbuf : FBuf) :
    flRowWrites width bufLen base d x xnext fbuf j = fbuf j := by
  simp only [flRowWrites]
  split_ifs <;>
    simp only [flWrite_outside hw hj, flInterior_outside hw hj]

theorem flStep_y_mono (p : FlSeg) (s : FlSt) : s.y ≤ (flStep p s).y := by
  simp only [flStep]
  split_ifs <;> simp

theorem flRun_writeSet (p : FlSeg) (hw : 0 ≤ p.width) :
    ∀ (n : ℕ) (s : FlSt) (j : ℤ), (flRun p n s).fbuf j ≠ s.fbuf j →
      ∃ y, 0 ≤ y ∧ s.y ≤ y ∧ y < p.yMax ∧
        y * p.width ≤ j ∧ j ≤ y * p.width + p.width ∧ j < p.bufLen := by
  intro n
  induction n with
  | zero => exact fun s j h => absurd rfl h
  | succ n ih =>
    intro s j h
    by_cases hg : s.y < p.yMax
    · rw [show flRun p (n + 1) s = flRun p n (flStep p s) from by
        rw [flRun, if_pos hg]] at h
      by_cases hstep : (flStep p s).fbuf j = s.fbuf j
      · obtain ⟨y, hy0, hys, hylt, h5, h6, h7⟩ := ih (flStep p s) j (by rw [hstep]; exact h)
        have hmono := flStep_y_mono p s
        exact ⟨y, hy0, by omega, hylt, h5, h6, h7⟩
      · by_cases hneg : s.y < 0
        · exact absurd (by simp only [flStep]; rw [if_pos hneg]) hstep
        · by_cases hnb : s.y * p.width ≤ j ∧ j ≤ s.y * p.width + p.width ∧ j < p.bufLen
          · exact ⟨s.y, by omega, le_refl _, hg, hnb.1, hnb.2.1, hnb.2.2⟩
          · refine absurd ?_ hstep
            show (flStep p s).fbuf j = s.fbuf j
            simp only [flStep]
            rw [if_neg hneg]
            exact flRowWrites_outside hw hnb _ _ _ _
    · rw [show flRun p (n + 1) s = s from by rw [flRun, if_neg hg]] at h
      exact absurd rfl h

theorem flLineTo_writeSet {width height bufLen : ℤ} (hw : 0 ≤ width)
    (a b : ℚ × ℚ) (fbuf : FBuf) (j : ℤ)
    (h : flLineToBuf width height bufLen a b fbuf j ≠ fbuf j) :
    ∃ y, 0 ≤ y ∧ y < height ∧
      y * width ≤ j ∧ j ≤ y * width + width ∧ j < bufLen := by
  simp only [flLineToBuf] at h
  split_ifs at h
  all_goals try exact absurd rfl h
  all_goals
    obtain ⟨y, hy0, _, hylt, h5, h6, h7⟩ :=
      flRun_writeSet (flSegOf width height bufLen a b) hw _ (flStartOf a b fbuf) j h
  all_goals
    have hle : (flSegOf width height bufLen a b).yMax ≤ height := by
      simp only [flSegOf]
      split_ifs <;> omega
  all_goals exact ⟨y, hy0, by omega, h5, h6, h7⟩

/-- C3 (amended): every buffer cell a `line_to` call modifies (in either
engine) belongs to some nonnegative processed row `y < height` and lies
in the closed interval `[y*width, y*width + width]` of indices below the
buffer length: column indices are clamped into `[0, width]`, but a write
whose clamped column reaches `width` is suppressed only when it would
fall beyond the end of the whole buffer (`i < buf.len()` is checked
against the tail slice starting at `y*width`, not against the row), so
it can land at index `y*width + width` — the first cell of the next row,
or a tail padding cell — rather than being suppressed. -/
theorem lineToWriteSetContainment :
    (∀ (width height bufLen : ℤ), 0 ≤ width → ∀ (a b : ℚ × ℚ) (buf : Buf) (j : ℤ),
      fixedLineToBuf width height bufLen a b buf j ≠ buf j →
      ∃ y, 0 ≤ y ∧ y < height ∧ y * width ≤ j ∧ j ≤ y * width + width ∧ j < bufLen) ∧
    (∀ (width height bufLen : ℤ), 0 ≤ width → ∀ (a b : ℚ × ℚ) (fbuf : FBuf) (j : ℤ),
      flLineToBuf width height bufLen a b fbuf j ≠ fbuf j →
      ∃ y, 0 ≤ y ∧ y < height ∧ y * width ≤ j ∧ j ≤ y * width + width ∧ j < bufLen) :=
  ⟨fun _ _ _ hw => fixedLineTo_writeSet hw, fun _ _ _ hw => flLineTo_writeSet hw⟩

theorem lineToWriteSetContainmentWitness :
    (∃ y : ℤ, 0 ≤ y ∧ y < 2 ∧ y * 2 ≤ 2 ∧ 2 ≤ y * 2 + 2 ∧ (2 : ℤ) < 4) ∧
    (∃ y : ℤ, 0 ≤ y ∧ y < 2 ∧ y * 2 ≤ 2 ∧ 2 ≤ y * 2 + 2 ∧ (2 : ℤ) < 4) :=
  ⟨lineToWriteSetContainment.1 2 2 4 (by decide) (3, 0) (3, 1) zeroBuf 2 (by decide),
   lineToWriteSetContainment.2 2 2 4 (by decide) (3, 0) (3, 1) zeroFBuf 2 (by decide)⟩

/-- C3 counterexample: on a `2×2` mask, the fixed engine's segment from
`(3, 0)` to `(3, 1)` processes exactly one row, `y = 0` (the loop starts
at `y = 0` with `y_max = 1`), yet it changes cell `2 = 1*2 + 0` — row
1's first cell, outside row 0's half-open index range `[0, 2)`: both of
the row's writes clamp their column to `width = 2` and the `i < buf.len()`
guard, checked against the 4-cell tail slice, does not suppress them. -/
theorem lineToRowSpillCounterexample :
    (fixedStartOf ((3 : ℚ), (0 : ℚ)) (3, 1) zeroBuf).y = 0 ∧
    (fixedSegOf 2 2 4 (3, 0) (3, 1)).yMax = 1 ∧
    fixedLineToBuf 2 2 4 (3, 0) (3, 1) zeroBuf (1 * 2 + 0) = 262144 ∧
    zeroBuf (1 * 2 + 0) = 0 ∧ ¬((1 * 2 + 0 : ℤ) < 0 * 2 + 2) :=
  ⟨by decide, by decide, by decide, by decide, by decide⟩

/-! ### Claim C6: the `SRC` uniform compositor -/

theorem srcPixelWrites_outside (i sr sg sb sa ma : ℤ) (pix : ℤ → ℤ) (j : ℤ)
    (h : j < i ∨ i + 4 ≤ j) :
    srcPixelWrites i sr sg sb sa ma pix j = pix j := by
  simp only [srcPixelWrites, setByte]
  rw [if_neg (by omega), if_neg (by omega), if_neg (by omega), if_neg (by omega)]

theorem srcPixelWrites_value (i sr sg sb sa ma : ℤ) (pix : ℤ → ℤ) (c : ℤ)
    (h0 : 0 ≤ c) (h4 : c < 4) :
    srcPixelWrites i sr sg sb sa ma pix (i + c) = srcChannelByte (chanOf sr sg sb sa c) ma := by
  interval_cases c <;> simp [srcPixelWrites, setByte, chanOf]

theorem srcRowGo_outside (mask : Buf) (w base stride sr sg sb sa y : ℤ) (n : ℕ) (x0 : ℤ)
    (pix : ℤ → ℤ) (j : ℤ)
    (h : j < base + (y * stride + 4 * x0) ∨ base + (y * stride + 4 * (x0 + n)) ≤ j) :
    srcRowGo mask w base stride sr sg sb sa y n x0 pix j = pix j := by
  induction n generalizing x0 pix with
  | zero => rfl
  | succ n ih =>
    rw [srcRowGo, ih (x0 + 1) _ (by push_cast at h ⊢; omega),
      srcPixelWrites_outside _ _ _ _ _ _ _ _ (by push_cast at h ⊢; omega)]

theorem srcRowGo_value (mask : Buf) (w base stride sr sg sb sa y : ℤ) (n : ℕ) (x0 x c : ℤ)
    (pix : ℤ → ℤ) (hx1 : x0 ≤ x) (hx2 : x < x0 + n) (hc0 : 0 ≤ c) (hc4 : c < 4) :
    srcRowGo mask w base stride sr sg sb sa y n x0 pix (base + (y * stride + 4 * x) + c)
      = srcChannelByte (chanOf sr sg sb sa c) (mask (y * w + x)) := by
  induction n generalizing x0 pix with
  | zero => omega
  | succ n ih =>
    rw [srcRowGo]
    by_cases hx : x = x0
    · subst hx
      rw [srcRowGo_outside _ _ _ _ _ _ _ _ _ _ _ _ _ (by left; omega)]
      exact srcPixelWrites_value _ _ _ _ _ _ _ c hc0 hc4
    · exact ih (x0 + 1) _ (by omega) (by push_cast at hx2 ⊢; omega)

theorem srcAllGo_outside (mask : Buf) (w base stride sr sg sb sa : ℤ) (xc : ℕ) (n : ℕ)
    (y0 : ℤ) (pix : ℤ → ℤ) (j : ℤ) (hst : 0 < stride)
    (h : j < base + y0 * stride) :
    srcAllGo mask w base stride sr sg sb sa xc n y0 pix j = pix j := by
  induction n generalizing y0 pix with
  | zero => rfl
  | succ n ih =>
    rw [srcAllGo, ih (y0 + 1) _ (by nlinarith),
      srcRowGo_outside _ _ _ _ _ _ _ _ _ _ _ _ _ (by left; omega)]

theorem srcAllGo_value (mask : Buf) (w base stride sr sg sb sa : ℤ) (xc : ℕ) (n : ℕ)
    (y0 : ℤ) (pix : ℤ → ℤ) (x y c : ℤ)
    (hx1 : 0 ≤ x) (hx2 : x < (xc : ℤ)) (hy1 : y0 ≤ y) (hy2 : y < y0 + n)
    (hc0 : 0 ≤ c) (hc4 : c < 4) (hst : 4 * (xc : ℤ) ≤ stride) :
    srcAllGo mask w base stride sr sg sb sa xc n y0 pix (base + (y * stride + 4 * x) + c)
      = srcChannelByte (chanOf sr sg sb sa c) (mask (y * w + x)) := by
  induction n generalizing y0 pix with
  | zero => omega
  | succ n ih =>
    rw [srcAllGo]
    by_cases hy : y = y0
    · subst hy
      have hst0 : 0 < stride := by omega
      rw [srcAllGo_outside _ _ _ _ _ _ _ _ _ _ _ _ _ hst0 (by nlinarith)]
      exact srcRowGo_value _ _ _ _ _ _ _ _ _ _ 0 x c _ hx1 (by omega) hc0 hc4
    · exact ih (y0 + 1) _ (by omega) (by push_cast at hy2 ⊢; omega)

/-- C6: `rgba_uniform_src` writes, for each `(x, y)` in
`[0, r.dx) × [0, r.dy)` and each channel `c ∈ {0,1,2,3}`, the
destination byte at offset `pix_offset(r.min) + y*stride + 4*x + c` with
the value `((s_c * ma / 0xffff) >> 8) as u8` computed in `u32`
arithmetic, where `ma` is the accumulated mask cell at `y * width + x`;
in particular, when all four source channels are `0xFFFF` and the mask
cell lies in `[0, 0xFFFF]`, the written byte is exactly `ma >> 8`.  The
hypothesis `4 * r.dx ≤ stride` (rows do not overlap) is what the caller
guarantees by intersecting `r` with the destination's bounds. -/
theorem rgbaUniformSrcWrites (z : Raster) (img : Img) (r : Rect) (sr sg sb sa x y c : ℤ)
    (hx1 : 0 ≤ x) (hx2 : x < r.maxx - r.minx) (hy1 : 0 ≤ y) (hy2 : y < r.maxy - r.miny)
    (hc0 : 0 ≤ c) (hc4 : c < 4) (hstride : 4 * (r.maxx - r.minx) ≤ img.stride) :
    (z.rgbaUniformSrc img r sr sg sb sa).pix
        (img.pixOffset r.minx r.miny + (y * img.stride + 4 * x) + c)
      = wrapU32 (chanOf sr sg sb sa c * z.accumulateMask (y * z.width + x)) / 0xffff / 2 ^ 8 % 2 ^ 8 ∧
    (sr = 0xffff → sg = 0xffff → sb = 0xffff → sa = 0xffff →
      0 ≤ z.accumulateMask (y * z.width + x) → z.accumulateMask (y * z.width + x) ≤ 0xffff →
      (z.rgbaUniformSrc img r sr sg sb sa).pix
          (img.pixOffset r.minx r.miny + (y * img.stride + 4 * x) + c)
        = z.accumulateMask (y * z.width + x) / 2 ^ 8) := by
  have hmain : (z.rgbaUniformSrc img r sr sg sb sa).pix
      (img.pixOffset r.minx r.miny + (y * img.stride + 4 * x) + c)
      = srcChannelByte (chanOf sr sg sb sa c) (z.accumulateMask (y * z.width + x)) := by
    show srcAllGo (z.accumulateMask) z.width (img.pixOffset r.minx r.miny) img.stride sr sg sb sa
        (r.maxx - r.minx).toNat (r.maxy - r.miny).toNat 0 img.pix _ = _
    exact srcAllGo_value _ _ _ _ _ _ _ _ _ _ 0 _ x y c hx1 (by omega) hy1 (by omega)
      hc0 hc4 (by omega)
  refine ⟨hmain, fun h1 h2 h3 h4 hma0 hma1 => ?_⟩
  rw [hmain]
  have hchan : chanOf sr sg sb sa c = 0xffff := by
    unfold chanOf
    split_ifs <;> omega
  rw [hchan]
  unfold srcChannelByte
  have e1 : wrapU32 (65535 * z.accumulateMask (y * z.width + x))
      = 65535 * z.accumulateMask (y * z.width + x) := by
    unfold wrapU32; omega
  rw [show ((0xffff : ℤ) = 65535) from rfl, e1]
  have e2 : (65535 : ℤ) * z.accumulateMask (y * z.width + x) / 65535
      = z.accumulateMask (y * z.width + x) := by omega
  rw [e2]
  omega

theorem rgbaUniformSrcWritesWitness :
    (Raster.rgbaUniformSrc ⟨1, 1, 4, (0, 0), (0, 0), false, fun j => if j = 0 then 40000 else 0, zeroFBuf⟩
        ⟨fun _ => 0, 4, 0, 0, 1, 1⟩ ⟨0, 0, 1, 1⟩ 0xffff 0xffff 0xffff 0xffff).pix
      ((Img.pixOffset ⟨fun _ => 0, 4, 0, 0, 1, 1⟩ (Rect.mk 0 0 1 1).minx (Rect.mk 0 0 1 1).miny)
        + ((0 : ℤ) * (Img.mk (fun _ => 0) 4 0 0 1 1).stride + 4 * 0) + 0) = 39 := by
  rw [(rgbaUniformSrcWrites
    ⟨1, 1, 4, (0, 0), (0, 0), false, fun j => if j = 0 then 40000 else 0, zeroFBuf⟩
    ⟨fun _ => 0, 4, 0, 0, 1, 1⟩ ⟨0, 0, 1, 1⟩ 0xffff 0xffff 0xffff 0xffff 0 0 0
    (by decide) (by decide) (by decide) (by decide) (by decide) (by decide) (by decide)).1]
  decide

/-! ### Claim C7: winding-reversal symmetry of the fixed engine -/

theorem negBuf_zero : negBuf zeroBuf = zeroBuf := by
  funext j
  unfold negBuf zeroBuf wrapU32
  norm_num

theorem wrap32_add_wrap32_neg (p : ℤ) : (wrap32 p + wrap32 (-p)) % 2 ^ 32 = 0 := by
  unfold wrap32
  omega

theorem wrap32_mul_neg_left (d k : ℤ) : (wrap32 (d * k) + wrap32 (-d * k)) % 2 ^ 32 = 0 := by
  rw [show -d * k = -(d * k) by ring]
  exact wrap32_add_wrap32_neg (d * k)

theorem wrap32_mul_neg_right (k d : ℤ) : (wrap32 (k * d) + wrap32 (k * -d)) % 2 ^ 32 = 0 := by
  rw [show k * -d = -(k * d) by ring]
  exact wrap32_add_wrap32_neg (k * d)

theorem tdiv32_neg_pair {S d : ℤ} (q : ℤ) (hsafe : wrap32 (S * d) ≠ -2 ^ 31) :
    (tdiv32 (wrap32 (S * d)) q + tdiv32 (wrap32 (S * -d)) q) % 2 ^ 32 = 0 := by
  have h1 : wrap32 (S * -d) = -wrap32 (S * d) := by
    rw [show S * -d = -(S * d) by ring]
    exact wrap32_neg hsafe
  rw [h1]
  unfold tdiv32
  rw [Int.neg_tdiv]
  exact wrap32_add_wrap32_neg (Int.tdiv (wrap32 (S * d)) q)

theorem tdiv32_shl_neg_pair {d : ℤ} (m q : ℤ) (hsafe : shl32 d m ≠ -2 ^ 31) :
    (tdiv32 (shl32 d m) q + tdiv32 (shl32 (-d) m) q) % 2 ^ 32 = 0 := by
  have h1 : shl32 (-d) m = -shl32 d m := by
    unfold shl32 at *
    rw [show -d * 2 ^ (m % 32).toNat = -(d * 2 ^ (m % 32).toNat) by ring]
    exact wrap32_neg hsafe
  rw [h1]
  unfold tdiv32
  rw [Int.neg_tdiv]
  exact wrap32_add_wrap32_neg (Int.tdiv (shl32 d m) q)

theorem wrapU32_negCongr_cell {a v1 v2 : ℤ} (hv : (v1 + v2) % 2 ^ 32 = 0) :
    wrapU32 (wrapU32 (-a) + v2) = wrapU32 (-wrapU32 (a + v1)) := by
  unfold wrapU32 at *
  omega

theorem fixedWrite_negCongr {v1 v2 : ℤ} (hv : (v1 + v2) % 2 ^ 32 = 0)
    (width bufLen base k : ℤ) (buf : Buf) :
    fixedWrite width bufLen base k v2 (negBuf buf)
      = negBuf (fixedWrite width bufLen base k v1 buf) := by
  simp only [fixedWrite]
  split_ifs
  · funext j
    by_cases hj : j = base + clamp k width
    · show (if j = _ then _ else _) = negBuf _ j
      unfold negBuf
      rw [if_pos hj]
      show wrapU32 (wrapU32 (-(buf j)) + v2) = wrapU32 (-(if j = base + clamp k width then _ else _))
      rw [if_pos hj]
      exact wrapU32_negCongr_cell hv
    · show (if j = _ then _ else _) = negBuf _ j
      unfold negBuf
      rw [if_neg hj]
      show wrapU32 (-(buf j)) = wrapU32 (-(if j = base + clamp k width then _ else _))
      rw [if_neg hj]
  · rfl

theorem fixedInteriorGo_negCongr {v1 v2 : ℤ} (hv : (v1 + v2) % 2 ^ 32 = 0)
    (width bufLen base : ℤ) (n : ℕ) (lo : ℤ) (buf : Buf) :
    fixedInteriorGo width bufLen base v2 n lo (negBuf buf)
      = negBuf (fixedInteriorGo width bufLen base v1 n lo buf) := by
  induction n generalizing lo buf with
  | zero => rfl
  | succ n ih => rw [fixedInteriorGo, fixedInteriorGo, fixedWrite_negCongr hv, ih]

theorem fixedInterior_negCongr {v1 v2 : ℤ} (hv : (v1 + v2) % 2 ^ 32 = 0)
    (width bufLen base lo hi : ℤ) (buf : Buf) :
    fixedInterior width bufLen base v2 lo hi (negBuf buf)
      = negBuf (fixedInterior width bufLen base v1 lo hi buf) :=
  fixedInteriorGo_negCongr hv width bufLen base _ lo buf

theorem fixedRowWrites_neg (width bufLen base d x xnext : ℤ) (buf : Buf)
    (hs : fixedRowSafeB d x xnext = true) :
    fixedRowWrites width bufLen base (-d) x xnext (negBuf buf)
      = negBuf (fixedRowWrites width bufLen base d x xnext buf) := by
  simp only [fixedRowSafeB] at hs
  simp only [fixedRowWrites]
  split_ifs at hs ⊢
  all_goals simp only [Bool.and_eq_true, decide_eq_true_eq] at hs
  all_goals try
    rw [fixedWrite_negCongr (wrap32_mul_neg_left d _),
      fixedWrite_negCongr (wrap32_mul_neg_left d _)]
  all_goals try
    (obtain ⟨⟨hs1, hs4⟩, ⟨hs2, hs5⟩, hs3⟩ := hs
     rw [fixedWrite_negCongr (tdiv32_neg_pair _ hs1),
       fixedWrite_negCongr (tdiv32_neg_pair _ hs2),
       fixedInterior_negCongr (tdiv32_shl_neg_pair (2 * ϕ) _ hs5),
       fixedWrite_negCongr (tdiv32_neg_pair _ hs3),
       fixedWrite_negCongr (tdiv32_neg_pair _ hs4)])
  all_goals
    (obtain ⟨⟨hs1, hs4⟩, hs2⟩ := hs
     rw [fixedWrite_negCongr (tdiv32_neg_pair _ hs1),
       fixedWrite_negCongr (tdiv32_neg_pair _ hs2),
       fixedWrite_negCongr (tdiv32_neg_pair _ hs4)])

theorem fixedDy_negSeg (p : FixedSeg) (y : ℤ) : fixedDy (negSeg p) y = fixedDy p y := rfl

theorem fixedXNext_negSeg (p : FixedSeg) (x y : ℤ) :
    fixedXNext (negSeg p) x y = fixedXNext p x y := rfl

theorem negSeg_yMax (p : FixedSeg) : (negSeg p).yMax = p.yMax := rfl

theorem fixedDy_range (p : FixedSeg) (y : ℤ) :
    -2 ^ 31 ≤ fixedDy p y ∧ fixedDy p y < 2 ^ 31 := ⟨wrap32_lb _, wrap32_ub _⟩

theorem fixedStep_neg (p : FixedSeg) (x y : ℤ) (buf : Buf)
    (hsafe : ¬(y < 0) →
      wrap32 (fixedDy p y * p.dir) ≠ -2 ^ 31 ∧
      fixedRowSafeB (wrap32 (fixedDy p y * p.dir)) x (fixedXNext p x y) = true) :
    fixedStep (negSeg p) ⟨x, y, negBuf buf⟩
      = ⟨(fixedStep p ⟨x, y, buf⟩).x, (fixedStep p ⟨x, y, buf⟩).y,
         negBuf (fixedStep p ⟨x, y, buf⟩).buf⟩ := by
  simp only [fixedStep]
  by_cases hy : y < 0
  · rw [if_pos hy, if_pos hy, fixedXNext_negSeg]
  · obtain ⟨hd, hrow⟩ := hsafe hy
    rw [if_neg hy, if_neg hy, fixedXNext_negSeg, fixedDy_negSeg]
    show FixedSt.mk _ _ (fixedRowWrites p.width p.bufLen (y * p.width)
        (wrap32 (fixedDy p y * -p.dir)) x (fixedXNext p x y) (negBuf buf)) = _
    have hdneg : wrap32 (fixedDy p y * -p.dir) = -wrap32 (fixedDy p y * p.dir) := by
      rw [show fixedDy p y * -p.dir = -(fixedDy p y * p.dir) by ring]
      exact wrap32_neg hd
    rw [hdneg, fixedRowWrites_neg _ _ _ _ _ _ _ hrow]

theorem fixedRun_succ_pos (p : FixedSeg) {s : FixedSt} (h : s.y < p.yMax) (n : ℕ) :
    fixedRun p (n + 1) s = fixedRun p n (fixedStep p s) := by
  rw [fixedRun, if_pos h]

theorem fixedRun_succ_neg (p : FixedSeg) {s : FixedSt} (h : ¬(s.y < p.yMax)) (n : ℕ) :
    fixedRun p (n + 1) s = s := by
  rw [fixedRun, if_neg h]

theorem fixedRun_neg (p : FixedSeg) :
    ∀ (n : ℕ) (x y : ℤ) (buf : Buf), fixedRunSafeB p n x y = true →
      fixedRun (negSeg p) n ⟨x, y, negBuf buf⟩
        = ⟨(fixedRun p n ⟨x, y, buf⟩).x, (fixedRun p n ⟨x, y, buf⟩).y,
           negBuf (fixedRun p n ⟨x, y, buf⟩).buf⟩ := by
  intro n
  induction n with
  | zero => intro x y buf _; rfl
  | succ n ih =>
    intro x y buf hs
    rw [fixedRunSafeB] at hs
    by_cases hg : y < p.yMax
    · rw [if_pos hg] at hs
      rw [fixedRun_succ_pos (negSeg p)
          (show (⟨x, y, negBuf buf⟩ : FixedSt).y < (negSeg p).yMax from hg) n,
        fixedRun_succ_pos p (show (⟨x, y, buf⟩ : FixedSt).y < p.yMax from hg) n]
      by_cases hy : y < 0
      · rw [if_pos hy] at hs
        rw [fixedStep_neg p x y buf (fun h => absurd hy h)]
        have hstep : fixedStep p ⟨x, y, buf⟩ = ⟨fixedXNext p x y, y, buf⟩ := by
          simp only [fixedStep]
          rw [if_pos hy]
        rw [hstep]
        exact ih (fixedXNext p x y) y buf hs
      · rw [if_neg hy] at hs
        simp only [Bool.and_eq_true, decide_eq_true_eq] at hs
        obtain ⟨⟨hd, hrow⟩, hrec⟩ := hs
        rw [fixedStep_neg p x y buf (fun _ => ⟨hd, hrow⟩)]
        have hstep : fixedStep p ⟨x, y, buf⟩
            = ⟨fixedXNext p x y, y + 1,
               fixedRowWrites p.width p.bufLen (y * p.width)
                 (wrap32 (fixedDy p y * p.dir)) x (fixedXNext p x y) buf⟩ := by
          simp only [fixedStep]
          rw [if_neg hy]
        rw [hstep]
        exact ih (fixedXNext p x y) (y + 1) _ hrec
    · rw [fixedRun_succ_neg (negSeg p)
          (show ¬((⟨x, y, negBuf buf⟩ : FixedSt).y < (negSeg p).yMax) from hg) n,
        fixedRun_succ_neg p (show ¬((⟨x, y, buf⟩ : FixedSt).y < p.yMax) from hg) n]

theorem fixedSegOf_swap {a b : ℚ × ℚ} (h : a.2 ≠ b.2) (width height bufLen : ℤ) :
    fixedSegOf width height bufLen b a = negSeg (fixedSegOf width height bufLen a b) := by
  rcases lt_or_gt_of_ne h with hlt | hgt
  · have h1 : b.2 > a.2 := hlt
    have h2 : ¬(a.2 > b.2) := not_lt.mpr (le_of_lt hlt)
    simp only [fixedSegOf, negSeg, if_pos h1, if_neg h2]
  · have h1 : ¬(b.2 > a.2) := not_lt.mpr (le_of_lt hgt)
    have h2 : a.2 > b.2 := hgt
    simp only [fixedSegOf, negSeg, if_neg h1, if_pos h2]
    norm_num

theorem fixedStartOf_swap {a b : ℚ × ℚ} (h : a.2 ≠ b.2) (buf buf2 : Buf) :
    fixedStartOf b a buf2 = ⟨(fixedStartOf a b buf).x, (fixedStartOf a b buf).y, buf2⟩ := by
  rcases lt_or_gt_of_ne h with hlt | hgt
  · have h1 : b.2 > a.2 := hlt
    have h2 : ¬(a.2 > b.2) := not_lt.mpr (le_of_lt hlt)
    simp only [fixedStartOf, if_pos h1, if_neg h2]
  · have h1 : ¬(b.2 > a.2) := not_lt.mpr (le_of_lt hgt)
    have h2 : a.2 > b.2 := hgt
    simp only [fixedStartOf, if_neg h1, if_pos h2]

theorem f32eps_pos : (0 : ℚ) < f32eps := by norm_num [f32eps]

theorem fixedLineToBuf_neg (width height bufLen : ℤ) (a b : ℚ × ℚ) (buf : Buf)
    (hs : fixedSegSafeB width height bufLen a b = true) :
    fixedLineToBuf width height bufLen b a (negBuf buf)
      = negBuf (fixedLineToBuf width height bufLen a b buf) := by
  by_cases heq : a.2 = b.2
  · have hd1 : (if b.2 > a.2 then b.2 else a.2) - (if b.2 > a.2 then a.2 else b.2) ≤ f32eps := by
      rw [heq]
      simp only [lt_irrefl, if_neg (lt_irrefl b.2)]
      have := f32eps_pos
      linarith
    have hd2 : (if a.2 > b.2 then a.2 else b.2) - (if a.2 > b.2 then b.2 else a.2) ≤ f32eps := by
      rw [heq]
      simp only [lt_irrefl, if_neg (lt_irrefl b.2)]
      have := f32eps_pos
      linarith
    simp only [fixedLineToBuf]
    rw [if_pos hd1, if_pos hd2]
  · have hsame : (if b.2 > a.2 then b.2 else a.2) - (if b.2 > a.2 then a.2 else b.2)
        = (if a.2 > b.2 then a.2 else b.2) - (if a.2 > b.2 then b.2 else a.2) := by
      rcases lt_or_gt_of_ne heq with hlt | hgt
      · rw [if_pos (show b.2 > a.2 from hlt), if_pos (show b.2 > a.2 from hlt),
          if_neg (not_lt.mpr (le_of_lt hlt)), if_neg (not_lt.mpr (le_of_lt hlt))]
      · rw [if_neg (not_lt.mpr (le_of_lt hgt)), if_neg (not_lt.mpr (le_of_lt hgt)),
          if_pos (show a.2 > b.2 from hgt), if_pos (show a.2 > b.2 from hgt)]
    simp only [fixedLineToBuf]
    rw [hsame]
    by_cases hdisc : (if a.2 > b.2 then a.2 else b.2) - (if a.2 > b.2 then b.2 else a.2) ≤ f32eps
    · rw [if_pos hdisc, if_pos hdisc]
    · rw [if_neg hdisc, if_neg hdisc]
      rw [fixedSegOf_swap heq width height bufLen,
        fixedStartOf_swap heq buf (negBuf buf)]
      have hsB : fixedRunSafeB (fixedSegOf width height bufLen a b)
          ((fixedSegOf width height bufLen a b).yMax - (fixedStartOf a b buf).y).toNat
          (fixedStartOf a b buf).x (fixedStartOf a b buf).y = true := by
        have hx : (fixedStartOf a b buf).x = (fixedStartOf a b zeroBuf).x := rfl
        have hy : (fixedStartOf a b buf).y = (fixedStartOf a b zeroBuf).y := rfl
        rw [hx, hy]
        simp only [fixedSegSafeB] at hs
        rw [if_neg hdisc] at hs
        exact hs
      have := fixedRun_neg (fixedSegOf width height bufLen a b)
        ((fixedSegOf width height bufLen a b).yMax - (fixedStartOf a b buf).y).toNat
        (fixedStartOf a b buf).x (fixedStartOf a b buf).y buf hsB
      rw [negSeg_yMax]
      rw [show (⟨(fixedStartOf a b buf).x, (fixedStartOf a b buf).y, negBuf buf⟩ : FixedSt)
          = ⟨(fixedStartOf a b buf).x, (fixedStartOf a b buf).y, negBuf (fixedStartOf a b buf).buf⟩ from rfl]
      rw [show (fixedStartOf a b buf : FixedSt)
          = ⟨(fixedStartOf a b buf).x, (fixedStartOf a b buf).y, buf⟩ from rfl] at this ⊢
      rw [this]

theorem fixedWrite_add (width bufLen base k v : ℤ) (buf c : Buf) :
    fixedWrite width bufLen base k v (addBuf buf c)
      = addBuf (fixedWrite width bufLen base k v buf) c := by
  simp only [fixedWrite]
  split_ifs
  · funext j
    by_cases hj : j = base + clamp k width
    · show (if j = _ then _ else _) = _
      unfold addBuf
      rw [if_pos hj]
      show wrapU32 (wrapU32 (buf j + c j) + v)
        = wrapU32 ((if j = base + clamp k width then _ else _) + c j)
      rw [if_pos hj]
      unfold wrapU32
      omega
    · show (if j = _ then _ else _) = _
      unfold addBuf
      rw [if_neg hj]
      show wrapU32 (buf j + c j)
        = wrapU32 ((if j = base + clamp k width then _ else _) + c j)
      rw [if_neg hj]
  · rfl

theorem fixedInteriorGo_add (width bufLen base v : ℤ) (n : ℕ) (lo : ℤ) (buf c : Buf) :
    fixedInteriorGo width bufLen base v n lo (addBuf buf c)
      = addBuf (fixedInteriorGo width bufLen base v n lo buf) c := by
  induction n generalizing lo buf with
  | zero => rfl
  | succ n ih => rw [fixedInteriorGo, fixedInteriorGo, fixedWrite_add, ih]

theorem fixedInterior_add (width bufLen base v lo hi : ℤ) (buf c : Buf) :
    fixedInterior width bufLen base v lo hi (addBuf buf c)
      = addBuf (fixedInterior width bufLen base v lo hi buf) c :=
  fixedInteriorGo_add width bufLen base v _ lo buf c

theorem fixedRowWrites_add (width bufLen base d x xnext : ℤ) (buf c : Buf) :
    fixedRowWrites width bufLen base d x xnext (addBuf buf c)
      = addBuf (fixedRowWrites width bufLen base d x xnext buf) c := by
  simp only [fixedRowWrites]
  split_ifs <;> simp only [fixedWrite_add, fixedInterior_add]

theorem fixedRun_add (p : FixedSeg) :
    ∀ (n : ℕ) (x y : ℤ) (buf c : Buf),
      fixedRun p n ⟨x, y, addBuf buf c⟩
        = ⟨(fixedRun p n ⟨x, y, buf⟩).x, (fixedRun p n ⟨x, y, buf⟩).y,
           addBuf (fixedRun p n ⟨x, y, buf⟩).buf c⟩ := by
  intro n
  induction n with
  | zero => intro x y buf c; rfl
  | succ n ih =>
    intro x y buf c
    by_cases hg : y < p.yMax
    · rw [fixedRun_succ_pos p (show (⟨x, y, addBuf buf c⟩ : FixedSt).y < p.yMax from hg) n,
        fixedRun_succ_pos p (show (⟨x, y, buf⟩ : FixedSt).y < p.yMax from hg) n]
      by_cases hy : y < 0
      · have h1 : fixedStep p ⟨x, y, addBuf buf c⟩ = ⟨fixedXNext p x y, y, addBuf buf c⟩ := by
          simp only [fixedStep]
          rw [if_pos hy]
        have h2 : fixedStep p ⟨x, y, buf⟩ = ⟨fixedXNext p x y, y, buf⟩ := by
          simp only [fixedStep]
          rw [if_pos hy]
        rw [h1, h2]
        exact ih (fixedXNext p x y) y buf c
      · have h1 : fixedStep p ⟨x, y, addBuf buf c⟩
            = ⟨fixedXNext p x y, y + 1,
               fixedRowWrites p.width p.bufLen (y * p.width)
                 (wrap32 (fixedDy p y * p.dir)) x (fixedXNext p x y) (addBuf buf c)⟩ := by
          simp only [fixedStep]
          rw [if_neg hy]
        have h2 : fixedStep p ⟨x, y, buf⟩
            = ⟨fixedXNext p x y, y + 1,
               fixedRowWrites p.width p.bufLen (y * p.width)
                 (wrap32 (fixedDy p y * p.dir)) x (fixedXNext p x y) buf⟩ := by
          simp only [fixedStep]
          rw [if_neg hy]
        rw [h1, h2, fixedRowWrites_add]
        exact ih (fixedXNext p x y) (y + 1) _ c
    · rw [fixedRun_succ_neg p (show ¬((⟨x, y, addBuf buf c⟩ : FixedSt).y < p.yMax) from hg) n,
        fixedRun_succ_neg p (show ¬((⟨x, y, buf⟩ : FixedSt).y < p.yMax) from hg) n]

theorem fixedLineToBuf_add (width height bufLen : ℤ) (a b : ℚ × ℚ) (buf c : Buf) :
    fixedLineToBuf width height bufLen a b (addBuf buf c)
      = addBuf (fixedLineToBuf width height bufLen a b buf) c := by
  simp only [fixedLineToBuf]
  split_ifs
  all_goals try rfl
  all_goals
    rw [show (fixedStartOf a b (addBuf buf c) : FixedSt)
        = ⟨(fixedStartOf a b buf).x, (fixedStartOf a b buf).y, addBuf buf c⟩ from rfl,
      show (fixedStartOf a b buf : FixedSt)
        = ⟨(fixedStartOf a b buf).x, (fixedStartOf a b buf).y, buf⟩ from rfl,
      fixedRun_add]

theorem zeroBuf_norm : BufNorm zeroBuf := fun _ => by
  unfold zeroBuf
  norm_num

theorem fixedWrite_norm {buf : Buf} (h : BufNorm buf) (width bufLen base k v : ℤ) :
    BufNorm (fixedWrite width bufLen base k v buf) := by
  intro j
  simp only [fixedWrite]
  split_ifs
  · show 0 ≤ (if j = _ then _ else buf j) ∧ (if j = _ then _ else buf j) < 2 ^ 32
    split_ifs
    · exact ⟨wrapU32_lb _, wrapU32_ub _⟩
    · exact h j
  · exact h j

theorem fixedInteriorGo_norm {buf : Buf} (h : BufNorm buf) (width bufLen base v : ℤ)
    (n : ℕ) (lo : ℤ) :
    BufNorm (fixedInteriorGo width bufLen base v n lo buf) := by
  induction n generalizing lo buf with
  | zero => exact h
  | succ n ih =>
    rw [fixedInteriorGo]
    exact ih (fixedWrite_norm h _ _ _ _ _) _

theorem fixedInterior_norm {buf : Buf} (h : BufNorm buf) (width bufLen base v lo hi : ℤ) :
    BufNorm (fixedInterior width bufLen base v lo hi buf) :=
  fixedInteriorGo_norm h width bufLen base v _ lo

theorem fixedRowWrites_norm {buf : Buf} (h : BufNorm buf) (width bufLen base d x xnext : ℤ) :
    BufNorm (fixedRowWrites width bufLen base d x xnext buf) := by
  simp only [fixedRowWrites]
  split_ifs
  all_goals
    repeat
      first
        | exact h
        | apply fixedWrite_norm
        | apply fixedInterior_norm

theorem fixedRun_norm (p : FixedSeg) :
    ∀ (n : ℕ) (s : FixedSt), BufNorm s.buf → BufNorm (fixedRun p n s).buf := by
  intro n
  induction n with
  | zero => exact fun s h => h
  | succ n ih =>
    intro s h
    rw [fixedRun]
    split_ifs
    · apply ih
      simp only [fixedStep]
      split_ifs
      · exact h
      · exact fixedRowWrites_norm h _ _ _ _ _ _
    · exact h

theorem fixedLineToBuf_norm {buf : Buf} (h : BufNorm buf) (width height bufLen : ℤ)
    (a b : ℚ × ℚ) :
    BufNorm (fixedLineToBuf width height bufLen a b buf) := by
  simp only [fixedLineToBuf]
  split_ifs
  all_goals try exact h
  all_goals exact fixedRun_norm _ _ _ h

theorem addBuf_zero_of_norm {c : Buf} (hc : BufNorm c) : addBuf zeroBuf c = c := by
  funext j
  unfold addBuf zeroBuf wrapU32
  have := hc j
  omega

theorem fixedAccAt_negCongr {b1 b2 : Buf} (h : NegCongr b1 b2) :
    ∀ n : ℕ, fixedAccAt b2 n = wrap32 (-fixedAccAt b1 n) := by
  intro n
  induction n with
  | zero =>
    show wrap32 (0 + wrap32 (b2 0)) = wrap32 (-wrap32 (0 + wrap32 (b1 0)))
    have h0 := h 0
    unfold wrap32
    omega
  | succ n ih =>
    show wrap32 (fixedAccAt b2 n + wrap32 (b2 (n + 1)))
      = wrap32 (-wrap32 (fixedAccAt b1 n + wrap32 (b1 (n + 1))))
    rw [ih]
    have hn := h (n + 1)
    unfold wrap32
    omega

theorem fixedMaskVal_negWrap (acc : ℤ) (h1 : -2 ^ 31 ≤ acc) (h2 : acc < 2 ^ 31) :
    fixedMaskVal (wrap32 (-acc)) = fixedMaskVal acc := by
  by_cases hmin : acc = -2 ^ 31
  · subst hmin
    rw [show wrap32 (-(-2 ^ 31)) = -2 ^ 31 from by unfold wrap32; norm_num]
  · have hr : wrap32 (-acc) = -acc := wrap32_eq_self (by omega) (by omega)
    rw [hr]
    have hne2 : -acc ≠ -2 ^ 31 := by omega
    rw [fixedMaskVal_eq_min (by omega) (by omega) hne2,
      fixedMaskVal_eq_min h1 h2 hmin, abs_neg]

theorem fixedMaskCell_negCongr {b1 b2 : Buf} (h : NegCongr b1 b2) (n : ℕ) :
    fixedMaskCell b2 n = fixedMaskCell b1 n := by
  unfold fixedMaskCell
  rw [fixedAccAt_negCongr h n]
  exact fixedMaskVal_negWrap _ (fixedAccAt_range b1 n).1 (fixedAccAt_range b1 n).2

theorem negBuf_norm (buf : Buf) : BufNorm (negBuf buf) :=
  fun _ => ⟨wrapU32_lb _, wrapU32_ub _⟩

theorem lineTo_fixed (z : Raster) (hz : z.useFpm = false) (b : ℚ × ℚ) :
    z.lineTo b = ⟨z.width, z.height, z.bufLen, z.first, b, z.useFpm,
      fixedLineToBuf z.width z.height z.bufLen z.pen b z.buf, z.fbuf⟩ := by
  simp only [Raster.lineTo, hz, Bool.false_eq_true, if_false]

theorem segApply_addBuf_zero {buf : Buf} (hn : BufNorm buf) (width height bufLen : ℤ)
    (u v : ℚ × ℚ) :
    fixedLineToBuf width height bufLen u v buf
      = addBuf (fixedLineToBuf width height bufLen u v zeroBuf) buf := by
  conv_lhs => rw [← addBuf_zero_of_norm hn]
  exact fixedLineToBuf_add width height bufLen u v zeroBuf buf

/-- C7 (amended): for a triangle with vertices inside the mask bounds on
a rasterizer small enough to select the fixed engine, traversing the
triangle in the opposite orientation produces the identical mask,
provided that in the wide-column division sites of every row processed
by the three segments no wrapped `i32` product equals exactly `-2^31`
(the one value whose wrapping negation is itself; at such a value the
truncated division breaks the sign symmetry — see the counterexample).
Under that proviso each per-cell delta of the reversed traversal is the
wrapping negation of the original, and the accumulator folds the sign
away through its absolute value. -/
theorem triangleReversalMasksEqual (w h : ℤ) (a b c : ℚ × ℚ)
    (hw0 : 0 ≤ w) (hw : w ≤ 512) (hh0 : 0 ≤ h) (hh : h ≤ 512)
    (_hax : 0 ≤ a.1 ∧ a.1 ≤ (w : ℚ)) (_hay : 0 ≤ a.2 ∧ a.2 ≤ (h : ℚ))
    (_hbx : 0 ≤ b.1 ∧ b.1 ≤ (w : ℚ)) (_hby : 0 ≤ b.2 ∧ b.2 ≤ (h : ℚ))
    (_hcx : 0 ≤ c.1 ∧ c.1 ≤ (w : ℚ)) (_hcy : 0 ≤ c.2 ∧ c.2 ≤ (h : ℚ))
    (s1 : fixedSegSafeB w h (simdLen (w * h)) a b = true)
    (s2 : fixedSegSafeB w h (simdLen (w * h)) b c = true)
    (s3 : fixedSegSafeB w h (simdLen (w * h)) c a = true) :
    ∀ j : ℤ,
      (((((Raster.new w h).moveTo a).lineTo b).lineTo c).closePath).accumulateMask j
        = (((((Raster.new w h).moveTo a).lineTo c).lineTo b).closePath).accumulateMask j := by
  have huse : (decide (w > 512) || decide (h > 512)) = false := by
    rw [Bool.or_eq_false_iff]
    exact ⟨decide_eq_false (by omega), decide_eq_false (by omega)⟩
  have e0 : Raster.new w h
      = ⟨w, h, simdLen (w * h), (0, 0), (0, 0), false, zeroBuf, zeroFBuf⟩ := by
    unfold Raster.new
    rw [huse]
  have e1 : ((((Raster.new w h).moveTo a).lineTo b).lineTo c).closePath
      = ⟨w, h, simdLen (w * h), a, a, false,
          fixedLineToBuf w h (simdLen (w * h)) c a
            (fixedLineToBuf w h (simdLen (w * h)) b c
              (fixedLineToBuf w h (simdLen (w * h)) a b zeroBuf)), zeroFBuf⟩ := by
    rw [e0]
    rw [show ((⟨w, h, simdLen (w * h), (0, 0), (0, 0), false, zeroBuf, zeroFBuf⟩ : Raster).moveTo a)
        = ⟨w, h, simdLen (w * h), a, a, false, zeroBuf, zeroFBuf⟩ from rfl]
    rw [lineTo_fixed _ rfl b]
    rw [lineTo_fixed _ rfl c]
    rw [Raster.closePath, lineTo_fixed _ rfl _]
  have e2 : ((((Raster.new w h).moveTo a).lineTo c).lineTo b).closePath
      = ⟨w, h, simdLen (w * h), a, a, false,
          fixedLineToBuf w h (simdLen (w * h)) b a
            (fixedLineToBuf w h (simdLen (w * h)) c b
              (fixedLineToBuf w h (simdLen (w * h)) a c zeroBuf)), zeroFBuf⟩ := by
    rw [e0]
    rw [show ((⟨w, h, simdLen (w * h), (0, 0), (0, 0), false, zeroBuf, zeroFBuf⟩ : Raster).moveTo a)
        = ⟨w, h, simdLen (w * h), a, a, false, zeroBuf, zeroFBuf⟩ from rfl]
    rw [lineTo_fixed _ rfl c]
    rw [lineTo_fixed _ rfl b]
    rw [Raster.closePath, lineTo_fixed _ rfl _]
  set L := simdLen (w * h) with hL
  set δ1 := fixedLineToBuf w h L a b zeroBuf with hδ1
  set δ2 := fixedLineToBuf w h L b c zeroBuf with hδ2
  set δ3 := fixedLineToBuf w h L c a zeroBuf with hδ3
  have n1 : BufNorm δ1 := fixedLineToBuf_norm zeroBuf_norm w h L a b
  have n2 : BufNorm δ2 := fixedLineToBuf_norm zeroBuf_norm w h L b c
  have hB1 : fixedLineToBuf w h L c a (fixedLineToBuf w h L b c δ1)
      = addBuf (addBuf δ3 δ2) δ1 := by
    rw [segApply_addBuf_zero n1 w h L b c, fixedLineToBuf_add, ← hδ2,
      segApply_addBuf_zero n2 w h L c a, ← hδ3]
  have hε1 : fixedLineToBuf w h L a c zeroBuf = negBuf δ3 := by
    have hx := fixedLineToBuf_neg w h L c a zeroBuf s3
    rw [negBuf_zero] at hx
    rw [hx, hδ3]
  have hε2 : fixedLineToBuf w h L c b zeroBuf = negBuf δ2 := by
    have hx := fixedLineToBuf_neg w h L b c zeroBuf s2
    rw [negBuf_zero] at hx
    rw [hx, hδ2]
  have hε3 : fixedLineToBuf w h L b a zeroBuf = negBuf δ1 := by
    have hx := fixedLineToBuf_neg w h L a b zeroBuf s1
    rw [negBuf_zero] at hx
    rw [hx, hδ1]
  have hB2 : fixedLineToBuf w h L b a (fixedLineToBuf w h L c b (fixedLineToBuf w h L a c zeroBuf))
      = addBuf (addBuf (negBuf δ1) (negBuf δ2)) (negBuf δ3) := by
    rw [hε1, segApply_addBuf_zero (negBuf_norm δ3) w h L c b, hε2,
      fixedLineToBuf_add, segApply_addBuf_zero (negBuf_norm δ2) w h L b a, hε3]
  have hNC : NegCongr (addBuf (addBuf δ3 δ2) δ1)
      (addBuf (addBuf (negBuf δ1) (negBuf δ2)) (negBuf δ3)) := by
    intro j
    unfold addBuf negBuf wrapU32
    omega
  have hunch : ∀ (u v : ℚ × ℚ) (buf : Buf) (j : ℤ), ¬(0 ≤ j ∧ j < L) →
      fixedLineToBuf w h L u v buf j = buf j := by
    intro u v buf j hj
    by_contra hne
    obtain ⟨y, hy0, _, h5, _, h7⟩ := fixedLineTo_writeSet hw0 u v buf j hne
    exact hj ⟨le_trans (mul_nonneg hy0 hw0) h5, h7⟩
  intro j
  rw [e1, e2]
  show (if 0 ≤ j ∧ j < L then _ else _) = (if 0 ≤ j ∧ j < L then _ else _)
  by_cases hj : 0 ≤ j ∧ j < L
  · rw [if_pos hj, if_pos hj]
    show fixedMaskCell _ j.toNat = fixedMaskCell _ j.toNat
    rw [hB1, hB2]
    exact (fixedMaskCell_negCongr hNC j.toNat).symm
  · rw [if_neg hj, if_neg hj]
    show fixedLineToBuf w h L c a (fixedLineToBuf w h L b c δ1) j
      = fixedLineToBuf w h L b a (fixedLineToBuf w h L c b (fixedLineToBuf w h L a c zeroBuf)) j
    rw [hunch _ _ _ _ hj, hunch _ _ _ _ hj, hunch _ _ _ _ hj, hunch _ _ _ _ hj,
      hunch _ _ _ _ hj, hδ1, hunch _ _ _ _ hj]

theorem triangleReversalMasksEqualWitness :
    (((((Raster.new 8 8).moveTo (1, 1)).lineTo (3, 1)).lineTo (2, 2)).closePath).accumulateMask 10
      = (((((Raster.new 8 8).moveTo (1, 1)).lineTo (2, 2)).lineTo (3, 1)).closePath).accumulateMask 10 :=
  triangleReversalMasksEqual 8 8 (1, 1) (3, 1) (2, 2)
    (by decide) (by decide) (by decide) (by decide)
    (by decide) (by decide) (by decide) (by decide) (by decide) (by decide)
    (by decide) (by decide) (by decide) 10

set_option maxRecDepth 100000

/-- C7 counterexample: the claim fails as stated.  On a `32×4` mask
(fixed engine) take the triangle `a = (1, 31/64)`, `b = (657/32, 1/2)`,
`c = (1, 1/2)` — all three vertices inside the bounds, every `f32`
value involved a small dyadic rational computed exactly.  On the row
`y = 0` of segment `a→b` the wide-column site of `raster_fixed.rs`
line 191 computes `D = (fxOneAndAHalf - x0f) << ((ϕ+1) -
one_minus_x0f_squared)` (Rust precedence), i.e. `2^18 << 10 = 2^28`,
and `D *= d` with `d = ±8` wraps to exactly `-2^31` for *both*
directions; after `D /= two_over_s = 20000` both traversals add the
same `-107374` to that cell instead of opposite values, so the
per-cell deltas do not negate and the accumulated masks differ — e.g.
at cell 22 the two orientations give `26925` and `26761`. -/
theorem triangleReversalCounterexample :
    (((((Raster.new 32 4).moveTo (1, 31 / 64)).lineTo (657 / 32, 1 / 2)).lineTo
        (1, 1 / 2)).closePath).accumulateMask 22 = 26925 ∧
    (((((Raster.new 32 4).moveTo (1, 31 / 64)).lineTo (1, 1 / 2)).lineTo
        (657 / 32, 1 / 2)).closePath).accumulateMask 22 = 26761 ∧
    (26925 : ℤ) ≠ 26761 := by
  refine ⟨?_, ?_, by decide⟩ <;> decide

end Kiss2d
